import Mathlib

/-
Shallow embedding of the Catch-the-Lion search engine
(src-tauri/src/shogi.rs) and verification of the specification claims.

Machine-integer conventions of the embedding:
* Rust u8 square indices and depths become Nat.  All positions handled by
  the program are at most 12 (the CAPTURED sentinel), so no u8 arithmetic
  can wrap anywhere in the translated code.
* Rust i32 scores become Int.  Every score the program manipulates is
  bounded in magnitude by 100000 + 255 except for the sentinels
  i32::MIN / i32::MAX, which are modelled as the literal constants
  I32_MIN / I32_MAX; no i32 operation in the source can overflow, so
  Int is a faithful model.
* The u64 position encoding shifts eight 5-bit fields plus 3 tag bits:
  at most 43 bits are ever set, so the u64 never wraps and Nat with
  bitwise or / shift is a faithful model.
* The Rust HashMap is modelled as an association list: insert conses a
  binding (shadowing any earlier one), lookup returns the most recent
  binding, exactly the observable behaviour of HashMap insert/get.
-/

namespace CatchTheLion

inductive Kind
  | chick
  | elephant
  | giraffe
  | lion
  | hen
deriving DecidableEq

structure Piece where
  kind : Kind
  position : Nat
  owner : Bool
deriving DecidableEq

abbrev Pieces := Fin 8 → Piece

structure Move where
  from' : Fin 8
  to' : Nat
deriving DecidableEq

inductive Flag
  | exact
  | alpha
  | beta
deriving DecidableEq

abbrev Table := List (Nat × Nat × Int × Flag)

def tableLookup (table : Table) (key : Nat) : Option (Nat × Int × Flag) :=
  (table.find? fun e => e.1 == key).map (·.2)

def tableInsert (table : Table) (key : Nat) (v : Nat × Int × Flag) : Table :=
  (key, v) :: table

def I32_MIN : Int := -2147483648

def I32_MAX : Int := 2147483647

def kindIdx : Kind → Nat
  | .chick => 0
  | .elephant => 1
  | .giraffe => 2
  | .lion => 3
  | .hen => 4

def PIECE_VALUE : Nat → Int
  | 0 => 10
  | 1 => 30
  | 2 => 50
  | 3 => 10000
  | _ => 70

def MOVE_DICT : Nat → List (Int × Int)
  | 0 => [(0, 1)]
  | 1 => [(1, 1), (-1, 1), (1, -1), (-1, -1)]
  | 2 => [(0, 1), (1, 0), (0, -1), (-1, 0)]
  | 3 => [(0, 1), (1, 0), (0, -1), (-1, 0), (1, 1), (-1, 1), (1, -1), (-1, -1)]
  | _ => [(0, 1), (1, 0), (0, -1), (-1, 0), (1, 1), (-1, 1)]

def ownerVal (o : Bool) : Nat := if o then 2 else 1

/-- Board occupancy array, built exactly as in the Rust source: start from
twelve zeroes and, iterating the 8 pieces in index order, write the owner
value of every on-board piece at its square. -/
def boardOf (P : Pieces) : List Nat :=
  (List.finRange 8).foldl
    (fun b k => if (P k).position < 12 then b.set (P k).position (ownerVal (P k).owner) else b)
    (List.replicate 12 0)

def pairIdx (i : Fin 8) : Fin 8 := ⟨i.val - 4, by omega⟩

/-- Canonical-drop test of possible_moves for a captured piece at index i:
i < 4, or the paired token has a different owner, or the paired token is on
the board. -/
def droppableIdx (P : Pieces) (i : Fin 8) : Prop :=
  i.val < 4 ∨ (P (pairIdx i)).owner ≠ (P i).owner ∨ (P (pairIdx i)).position < 12

instance (P : Pieces) (i : Fin 8) : Decidable (droppableIdx P i) := by
  unfold droppableIdx; infer_instance

/-- Moves generated for the single piece at index i, mirroring one
iteration of the loop in possible_moves. -/
def movesFor (P : Pieces) (board : List Nat) (turn : Bool) (i : Fin 8) : List Move :=
  if (P i).owner ≠ turn then []
  else if (P i).position = 12 then
    if droppableIdx P i then
      ((List.range 12).filter fun j => board.getD j 0 == 0).map fun j => { from' := i, to' := j }
    else []
  else
    (MOVE_DICT (kindIdx (P i).kind)).filterMap fun d =>
      let x : Int := ((P i).position : Int) % 3
      let y : Int := ((P i).position : Int) / 3
      let dx := if turn then d.1 else -d.1
      let dy := if turn then d.2 else -d.2
      let x2 := x + dx
      let y2 := y + dy
      if 0 ≤ x2 ∧ x2 < 3 ∧ 0 ≤ y2 ∧ y2 < 4 then
        if board.getD (3 * y2 + x2).toNat 0 ≠ ownerVal (P i).owner then
          some { from' := i, to' := (3 * y2 + x2).toNat }
        else none
      else none

def possible_moves (P : Pieces) (turn : Bool) : List Move :=
  (List.finRange 8).foldr (fun k acc => movesFor P (boardOf P) turn k ++ acc) []

/-- Index of the first piece standing on square to, as found by
pieces.iter().position(|p| p.position == to). -/
def capture_index (P : Pieces) (dest : Nat) : Option (Fin 8) :=
  (List.finRange 8).find? fun j => (P j).position == dest

def play_move (P : Pieces) (m : Move) : Pieces :=
  let moverOwner := (P m.from').owner
  let moverKind := (P m.from').kind
  let moverPos := (P m.from').position
  let p1 : Pieces :=
    match capture_index P m.to' with
    | some j => fun k =>
        if k = j then
          { kind := if (P j).kind = Kind.hen then Kind.chick else (P j).kind
            position := 12
            owner := moverOwner }
        else P k
    | none => P
  let p2 : Pieces := fun k => if k = m.from' then { p1 k with position := m.to' } else p1 k
  if moverKind = Kind.chick ∧ moverPos < 12 ∧
      ((moverOwner = true ∧ 8 < m.to') ∨ (moverOwner = false ∧ m.to' < 3)) then
    fun k => if k = m.from' then { p2 k with kind := Kind.hen } else p2 k
  else p2

def evaluate_position (P : Pieces) : Int :=
  let board := boardOf P
  let material := (List.finRange 8).foldl
    (fun acc k => acc + (if (P k).owner then -1 else 1) * PIECE_VALUE (kindIdx (P k).kind)) 0
  (List.finRange 8).foldl
    (fun acc k =>
      if (P k).position < 12 then
        (MOVE_DICT (kindIdx (P k).kind)).foldl
          (fun a d =>
            let x : Int := ((P k).position : Int) % 3
            let y : Int := ((P k).position : Int) / 3
            let dx := if (P k).owner then d.1 else -d.1
            let dy := if (P k).owner then d.2 else -d.2
            let x2 := x + dx
            let y2 := y + dy
            if 0 ≤ x2 ∧ x2 < 3 ∧ 0 ≤ y2 ∧ y2 < 4 then
              if board.getD (3 * y2 + x2).toNat 0 ≠ ownerVal (P k).owner then
                a + (if (P k).owner then -1 else 1)
              else a
            else a)
          acc
      else acc)
    material

def encode_pieces (P : Pieces) (turn : Bool) : Nat :=
  let e := (List.finRange 8).foldl
    (fun enc k => (enc ||| (P k).position ||| (if (P k).owner then 16 else 0)) <<< 5) 0
  let e := if turn then e ||| 1 else e
  let e := if (P 3).kind = Kind.hen then e ||| 2 else e
  if (P 7).kind = Kind.hen then e ||| 4 else e

/-- Maximizing move loop of alphabeta (the turn = false branch): threads the
table, raises alpha, tracks the fail-soft best score and breaks as soon as
alpha is at least beta.  Returns (best_score, alpha, table). -/
def abMaxLoop (child : Table → Int → Int → Pieces → Int × Table) (P : Pieces) :
    List Move → Table → Int → Int → Int → Int × Int × Table
  | [], table, alpha, _beta, best => (best, alpha, table)
  | m :: ms, table, alpha, beta, best =>
    let r := child table alpha beta (play_move P m)
    let best2 := max best r.1
    let alpha2 := max alpha r.1
    if beta ≤ alpha2 then (best2, alpha2, r.2)
    else abMaxLoop child P ms r.2 alpha2 beta best2

/-- Minimizing move loop of alphabeta (the turn = true branch).
Returns (best_score, beta, table). -/
def abMinLoop (child : Table → Int → Int → Pieces → Int × Table) (P : Pieces) :
    List Move → Table → Int → Int → Int → Int × Int × Table
  | [], table, _alpha, beta, best => (best, beta, table)
  | m :: ms, table, alpha, beta, best =>
    let r := child table alpha beta (play_move P m)
    let best2 := min best r.1
    let beta2 := min beta r.1
    if beta2 ≤ alpha then (best2, beta2, r.2)
    else abMinLoop child P ms r.2 alpha beta2 best2

/-- Local alpha after the transposition lookup of alphabeta: raised by a
same-depth Flag.alpha entry, otherwise unchanged. -/
def tightenedAlpha (table : Table) (key : Nat) (depth : Nat) (alpha : Int) : Int :=
  match tableLookup table key with
  | some (depth2, score, flag) =>
    if depth2 = depth ∧ flag = Flag.alpha then max alpha score else alpha
  | none => alpha

/-- Local beta after the transposition lookup of alphabeta: lowered by a
same-depth Flag.beta entry, otherwise unchanged. -/
def tightenedBeta (table : Table) (key : Nat) (depth : Nat) (beta : Int) : Int :=
  match tableLookup table key with
  | some (depth2, score, flag) =>
    if depth2 = depth ∧ flag = Flag.beta then min beta score else beta
  | none => beta

/-- The call reaches the move loop: the lookup is not a same-depth Exact
hit and the lookup-tightened window is not inverted (so neither early
return of abStep fires). -/
def noEarlyReturn (table : Table) (key : Nat) (depth : Nat) (alpha beta : Int) : Prop :=
  (∀ e ∈ (tableLookup table key).toList, ¬(e.1 = depth ∧ e.2.2 = Flag.exact)) ∧
  tightenedAlpha table key depth alpha < tightenedBeta table key depth beta

instance (table : Table) (key : Nat) (depth : Nat) (alpha beta : Int) :
    Decidable (noEarlyReturn table key depth alpha beta) := by
  unfold noEarlyReturn; infer_instance

/-- Scores of the children the maximizing loop actually examines, in
order, the score causing a cutoff included: observer of abMaxLoop used
to state its fail-soft property. -/
def abMaxScores (child : Table → Int → Int → Pieces → Int × Table) (P : Pieces) :
    List Move → Table → Int → Int → List Int
  | [], _, _, _ => []
  | m :: ms, table, alpha, beta =>
    let r := child table alpha beta (play_move P m)
    if beta ≤ max alpha r.1 then [r.1]
    else r.1 :: abMaxScores child P ms r.2 (max alpha r.1) beta

/-- Scores of the children the minimizing loop actually examines. -/
def abMinScores (child : Table → Int → Int → Pieces → Int × Table) (P : Pieces) :
    List Move → Table → Int → Int → List Int
  | [], _, _, _ => []
  | m :: ms, table, alpha, beta =>
    let r := child table alpha beta (play_move P m)
    if min beta r.1 ≤ alpha then [r.1]
    else r.1 :: abMinScores child P ms r.2 alpha (min beta r.1)

/-- Body of alphabeta after the transposition lookup: alphaOrig and betaOrig
are the window as received by the call, alpha and beta the window possibly
tightened by the lookup. -/
def abScore (child : Bool → Table → Int → Int → Pieces → Int × Table)
    (depth : Nat) (table : Table) (turn : Bool)
    (alphaOrig betaOrig alpha beta : Int) (P : Pieces) : Int × Table :=
  if depth = 0 then (evaluate_position P, table)
  else if (P 1).position = 12 then (-100000 - (depth : Int), table)
  else if (P 5).position = 12 then (100000 + (depth : Int), table)
  else if turn = true ∧ 8 < (P 5).position then (-100000 - (depth : Int), table)
  else if turn = false ∧ (P 1).position < 3 then (100000 + (depth : Int), table)
  else if turn = false then
    let r := abMaxLoop (child true) P (possible_moves P turn) table alpha beta I32_MIN
    let flag := if r.1 ≤ alphaOrig then Flag.beta
      else if beta ≤ r.1 then Flag.alpha
      else Flag.exact
    (r.2.1, tableInsert r.2.2 (encode_pieces P turn) (depth, r.1, flag))
  else
    let r := abMinLoop (child false) P (possible_moves P turn) table alpha beta I32_MAX
    let flag := if betaOrig ≤ r.1 then Flag.alpha
      else if r.1 ≤ alpha then Flag.beta
      else Flag.exact
    (r.2.1, tableInsert r.2.2 (encode_pieces P turn) (depth, r.1, flag))

/-- One step of alphabeta: transposition lookup (exact hit returns, bound
hits tighten the window, an inverted tightened window returns the stored
score), then the terminal / evaluation / move-loop body. -/
def abStep (child : Bool → Table → Int → Int → Pieces → Int × Table)
    (depth : Nat) (table : Table) (turn : Bool) (alpha beta : Int) (P : Pieces) : Int × Table :=
  match tableLookup table (encode_pieces P turn) with
  | some (depth2, score, flag) =>
    if depth2 = depth ∧ flag = Flag.exact then (score, table)
    else
      let alpha2 := if depth2 = depth ∧ flag = Flag.alpha then max alpha score else alpha
      let beta2 := if depth2 = depth ∧ flag = Flag.beta then min beta score else beta
      if beta2 ≤ alpha2 then (score, table)
      else abScore child depth table turn alpha beta alpha2 beta2 P
  | none => abScore child depth table turn alpha beta alpha beta P

def alphabeta : Nat → Table → Bool → Int → Int → Pieces → Int × Table
  | 0, table, turn, alpha, beta, P =>
    abStep (fun _ t _ _ _ => (0, t)) 0 table turn alpha beta P
  | depth + 1, table, turn, alpha, beta, P =>
    abStep (fun turn2 t a b p => alphabeta depth t turn2 a b p) (depth + 1) table turn alpha beta P

/-- Root loop of shogi_ai over one group of (move, successor) candidates.
Returns (alpha, beta, best_move, table). -/
def rootLoop (d : Nat) (turn : Bool) :
    List (Move × Pieces) → Table → Int → Int → Option Move → Int × Int × Option Move × Table
  | [], table, alpha, beta, best => (alpha, beta, best, table)
  | c :: rest, table, alpha, beta, best =>
    if turn = false then
      let r := alphabeta d table true alpha beta c.2
      if alpha < r.1 then rootLoop d turn rest r.2 r.1 beta (some c.1)
      else rootLoop d turn rest r.2 alpha beta best
    else
      let r := alphabeta d table false alpha beta c.2
      if r.1 < beta then rootLoop d turn rest r.2 alpha r.1 (some c.1)
      else rootLoop d turn rest r.2 alpha beta best

/-- Structural equality of two positions, as the derived PartialEq used by
the history filter in shogi_ai. -/
def piecesEqb (P Q : Pieces) : Bool :=
  (List.finRange 8).all fun k => decide (P k = Q k)

instance : DecidableEq Pieces := fun P Q =>
  decidable_of_iff ((List.finRange 8).all fun k => decide (P k = Q k) : Bool) <| by
    simp only [List.all_eq_true, decide_eq_true_eq, List.mem_finRange, true_implies]
    constructor
    · intro h; funext k; exact h k
    · intro h k; rw [h]

/-- The root move selector.  The Rust function ends in an unwrap; the model
returns an Option, with none standing for the panic. -/
def shogi_ai (P : Pieces) (played : List Pieces) (depth : Nat) (turn : Bool) : Option Move :=
  let cands := (possible_moves P turn).map fun m => (m, play_move P m)
  let parts := cands.partition fun c => played.any fun ps => piecesEqb ps c.2
  let r1 := rootLoop (depth - 1) turn parts.2 [] I32_MIN I32_MAX none
  match r1.2.2.1 with
  | some m => some m
  | none => (rootLoop (depth - 1) turn parts.1 r1.2.2.2 r1.1 r1.2.1 none).2.2.1

/-- Occupancy invariant of a position: every piece is on a board square or
captured, and no two pieces share a board square. -/
def occInv (P : Pieces) : Prop :=
  (∀ k, (P k).position ≤ 12) ∧
  ∀ k l, k ≠ l → (P k).position < 12 → (P l).position < 12 → (P k).position ≠ (P l).position

/-- No piece held in hand is a promoted pawn. -/
def handNoHen (P : Pieces) : Prop :=
  ∀ k, (P k).position = 12 → (P k).kind ≠ Kind.hen

instance (P : Pieces) : Decidable (occInv P) := by
  unfold occInv; infer_instance

instance (P : Pieces) : Decidable (handNoHen P) := by
  unfold handNoHen; infer_instance

/-- Position model of the specification: the occupancy invariant, no
promoted pawn in hand, royal tokens at slots 1 and 5 with their fixed
owners, and the kind pairing i / i+4 of the 8 token slots (slots 0/4 and
2/6 hold the same non-royal, non-pawn kind; slots 3/7 hold the pawn-like
kinds chick or hen). -/
def SpecPos (P : Pieces) : Prop :=
  occInv P ∧ handNoHen P ∧
  (P 1).kind = Kind.lion ∧ (P 5).kind = Kind.lion ∧
  (P 1).owner = false ∧ (P 5).owner = true ∧
  (P 0).kind = (P 4).kind ∧ (P 2).kind = (P 6).kind ∧
  ((P 0).kind = Kind.elephant ∨ (P 0).kind = Kind.giraffe) ∧
  ((P 2).kind = Kind.elephant ∨ (P 2).kind = Kind.giraffe) ∧
  ((P 3).kind = Kind.chick ∨ (P 3).kind = Kind.hen) ∧
  ((P 7).kind = Kind.chick ∨ (P 7).kind = Kind.hen)

instance (P : Pieces) : Decidable (SpecPos P) := by
  unfold SpecPos; infer_instance

/-- Plays a list of moves from a position, alternating the side to move and
requiring each move to be generated by possible_moves. -/
def playSeq : Pieces → Bool → List Move → Option Pieces
  | P, _, [] => some P
  | P, t, m :: ms =>
    if m ∈ possible_moves P t then playSeq (play_move P m) (!t) ms else none

/-- Builds an 8-piece position from a list (padding, never used, is a
captured chick). -/
def mkPieces (l : List Piece) : Pieces := fun k => l.getD k.val ⟨Kind.chick, 12, false⟩

/-- Standard initial setup: slots 0-3 are white (owner false, home rows at
squares 9-11, moving toward 0), slots 4-7 black (owner true). -/
def stdStart : Pieces := mkPieces [
  ⟨Kind.giraffe, 9, false⟩,
  ⟨Kind.lion, 10, false⟩,
  ⟨Kind.elephant, 11, false⟩,
  ⟨Kind.chick, 7, false⟩,
  ⟨Kind.giraffe, 2, true⟩,
  ⟨Kind.lion, 1, true⟩,
  ⟨Kind.elephant, 0, true⟩,
  ⟨Kind.chick, 4, true⟩]

/-- Position refuting C1, satisfying the full Position model (SpecPos):
royal tokens at slots 1 (white lion, square 5) and 5 (black lion, square
6), kind pairs giraffe/giraffe at 0/4, elephant/elephant at 2/6, chick/
chick at 3/7, distinct squares, both royals on the board and outside
their try bands, no piece in hand.  Black owns seven tokens (its own four
plus white's captured and re-dropped giraffe, elephant and chick), white
only its lion.  Black to move has exactly two moves: lion 6 to 3 and
chick 0 to 3.  After chick 0 to 3 black's seven pieces form a mutual
block (lion 6, giraffes 7 and 9, elephants 8 and 10, chicks 3 and 4:
every destination of every black piece is black-occupied or off the
board), so after any non-capturing white lion reply black has zero legal
moves, the depth-1 node returns its incoming beta i32::MAX, and the novel
candidate 7 to 3 searches to i32::MAX.  The strict test score < beta
then fails, the novel loop selects nothing, and shogi_ai falls through to
the repeated lion move 5 to 3. -/
def c1Pos : Pieces := mkPieces [
  ⟨Kind.giraffe, 7, true⟩,
  ⟨Kind.lion, 5, false⟩,
  ⟨Kind.elephant, 10, true⟩,
  ⟨Kind.chick, 4, true⟩,
  ⟨Kind.giraffe, 9, true⟩,
  ⟨Kind.lion, 6, true⟩,
  ⟨Kind.elephant, 8, true⟩,
  ⟨Kind.chick, 0, true⟩]

/-- History containing exactly the successor of the root lion move
5 to 3. -/
def c1Played : List Pieces := [play_move c1Pos ⟨5, 3⟩]

/-- White-to-move try position for the C2 witness: the white royal (slot
1) already stands on square 1 of its try band, both royals on the
board. -/
def c2PosW : Pieces := mkPieces [
  ⟨Kind.chick, 12, false⟩,
  ⟨Kind.lion, 1, false⟩,
  ⟨Kind.chick, 12, false⟩,
  ⟨Kind.chick, 12, false⟩,
  ⟨Kind.chick, 12, false⟩,
  ⟨Kind.lion, 4, true⟩,
  ⟨Kind.chick, 12, false⟩,
  ⟨Kind.chick, 12, false⟩]

/-- Try position for C2: black (true) to move, black royal (slot 5)
already on square 9 of its try band, both royals on the board. -/
def c2Pos : Pieces := mkPieces [
  ⟨Kind.chick, 12, false⟩,
  ⟨Kind.lion, 4, false⟩,
  ⟨Kind.chick, 12, false⟩,
  ⟨Kind.chick, 12, false⟩,
  ⟨Kind.chick, 12, false⟩,
  ⟨Kind.lion, 9, true⟩,
  ⟨Kind.chick, 12, false⟩,
  ⟨Kind.chick, 12, false⟩]

/-- Position for C3: white (false) to move while the BLACK royal (slot 5,
the side not to move) stands in its try band on square 9; the white royal
is on square 4, outside its own band. -/
def c3Pos : Pieces := mkPieces [
  ⟨Kind.chick, 12, true⟩,
  ⟨Kind.lion, 4, false⟩,
  ⟨Kind.chick, 12, true⟩,
  ⟨Kind.chick, 12, true⟩,
  ⟨Kind.chick, 12, true⟩,
  ⟨Kind.lion, 9, true⟩,
  ⟨Kind.chick, 12, true⟩,
  ⟨Kind.chick, 12, true⟩]

/-- Non-terminal position used for the C5 bound-tagging counterexample. -/
def c5Pos : Pieces := mkPieces [
  ⟨Kind.chick, 12, true⟩,
  ⟨Kind.lion, 4, false⟩,
  ⟨Kind.chick, 12, true⟩,
  ⟨Kind.chick, 12, true⟩,
  ⟨Kind.chick, 12, true⟩,
  ⟨Kind.lion, 9, true⟩,
  ⟨Kind.chick, 12, true⟩,
  ⟨Kind.chick, 12, true⟩]

/-- Non-terminal position used for the C6 fail-soft counterexample. -/
def c6Pos : Pieces := mkPieces [
  ⟨Kind.chick, 12, true⟩,
  ⟨Kind.lion, 4, false⟩,
  ⟨Kind.chick, 12, true⟩,
  ⟨Kind.chick, 12, true⟩,
  ⟨Kind.chick, 12, true⟩,
  ⟨Kind.lion, 9, true⟩,
  ⟨Kind.chick, 12, true⟩,
  ⟨Kind.chick, 12, true⟩]

/-- Position for C8: the black promoted pawn (hen) at slot 3 stands on
square 4 and can legally move to square 7. -/
def c8Pos : Pieces := mkPieces [
  ⟨Kind.chick, 12, false⟩,
  ⟨Kind.lion, 0, false⟩,
  ⟨Kind.chick, 12, false⟩,
  ⟨Kind.hen, 4, true⟩,
  ⟨Kind.chick, 12, false⟩,
  ⟨Kind.lion, 8, true⟩,
  ⟨Kind.chick, 12, false⟩,
  ⟨Kind.chick, 12, false⟩]

/-- Position with both chick tokens (slots 3 and 7) held in hand by black:
only the canonical slot 3 may emit drop moves. -/
def c7WitPos : Pieces := mkPieces [
  ⟨Kind.giraffe, 9, false⟩,
  ⟨Kind.lion, 10, false⟩,
  ⟨Kind.elephant, 11, false⟩,
  ⟨Kind.chick, 12, true⟩,
  ⟨Kind.giraffe, 2, true⟩,
  ⟨Kind.lion, 1, true⟩,
  ⟨Kind.elephant, 0, true⟩,
  ⟨Kind.chick, 12, true⟩]

/-- Table holding a same-depth Flag.alpha binding for c5Pos, used to
exercise the lookup-hit case of the C5 theorem. -/
def c5HitTable : Table := [(encode_pieces c5Pos false, (1, 550000, Flag.alpha))]

/-- Table holding a same-depth Flag.alpha binding for c6Pos, used to
exercise the lookup-hit case of the C6 theorem. -/
def c6HitTable : Table := [(encode_pieces c6Pos false, (1, 550000, Flag.alpha))]

/-
Helper lemmas.
-/

lemma tableLookup_tableInsert_self (t : Table) (k : Nat) (v : Nat × Int × Flag) :
    tableLookup (tableInsert t k v) k = some v := by
  simp [tableLookup, tableInsert, List.find?_cons]

lemma piecesEqb_iff (P Q : Pieces) : piecesEqb P Q = true ↔ P = Q := by
  simp only [piecesEqb, List.all_eq_true, decide_eq_true_eq, List.mem_finRange, true_implies]
  constructor
  · intro h; funext k; exact h k
  · intro h k; rw [h]

lemma rootLoop_best_mem (d : Nat) (turn : Bool) (l : List (Move × Pieces)) (t : Table)
    (a b : Int) (best : Option Move) (m : Move)
    (h : (rootLoop d turn l t a b best).2.2.1 = some m) :
    best = some m ∨ ∃ np, (m, np) ∈ l := by
  induction l generalizing t a b best with
  | nil => exact Or.inl h
  | cons c rest ih =>
    simp only [rootLoop] at h
    split at h
    · split at h
      · rcases ih _ _ _ _ h with h' | ⟨np, hnp⟩
        · exact Or.inr ⟨c.2, by rw [List.mem_cons]; exact Or.inl (by rw [← Option.some.inj h'])⟩
        · exact Or.inr ⟨np, List.mem_cons_of_mem _ hnp⟩
      · rcases ih _ _ _ _ h with h' | ⟨np, hnp⟩
        · exact Or.inl h'
        · exact Or.inr ⟨np, List.mem_cons_of_mem _ hnp⟩
    · split at h
      · rcases ih _ _ _ _ h with h' | ⟨np, hnp⟩
        · exact Or.inr ⟨c.2, by rw [List.mem_cons]; exact Or.inl (by rw [← Option.some.inj h'])⟩
        · exact Or.inr ⟨np, List.mem_cons_of_mem _ hnp⟩
      · rcases ih _ _ _ _ h with h' | ⟨np, hnp⟩
        · exact Or.inl h'
        · exact Or.inr ⟨np, List.mem_cons_of_mem _ hnp⟩

lemma mem_foldr_append {α : Type} (F : Fin 8 → List α) (L : List (Fin 8)) (m : α) :
    m ∈ L.foldr (fun k acc => F k ++ acc) [] ↔ ∃ k ∈ L, m ∈ F k := by
  induction L with
  | nil => simp
  | cons i rest ih => simp [List.foldr_cons, ih]

lemma count_foldr_append (F : Fin 8 → List Move) (L : List (Fin 8)) (m : Move) :
    (L.foldr (fun k acc => F k ++ acc) []).count m = (L.map fun k => (F k).count m).sum := by
  induction L with
  | nil => simp
  | cons i rest ih => simp [List.foldr_cons, List.count_append, ih]

lemma sum_map_eq_single {α : Type} [DecidableEq α] (L : List α) (f : α → Nat) (i : α)
    (hnd : L.Nodup) (hi : i ∈ L) (hz : ∀ k ∈ L, k ≠ i → f k = 0) :
    (L.map f).sum = f i := by
  induction L with
  | nil => cases hi
  | cons a rest ih =>
    rcases List.mem_cons.1 hi with rfl | hmem
    · have hall : ∀ k ∈ rest, f k = 0 := by
        intro k hk
        exact hz k (List.mem_cons_of_mem _ hk) (fun hk2 => (List.nodup_cons.1 hnd).1 (hk2 ▸ hk))
      have hz0 : ∀ x ∈ rest.map f, x = 0 := by
        intro x hx
        rcases List.mem_map.1 hx with ⟨k, hk, rfl⟩
        exact hall k hk
      simp [List.sum_eq_zero hz0]
    · have ha : f a = 0 := hz a (List.mem_cons_self _ _) (fun h2 => (List.nodup_cons.1 hnd).1 (h2 ▸ hmem))
      simp [ha, ih (List.nodup_cons.1 hnd).2 hmem
        (fun k hk => hz k (List.mem_cons_of_mem _ hk))]

lemma abMaxLoop_best_le (child : Table → Int → Int → Pieces → Int × Table) (P : Pieces)
    (ms : List Move) : ∀ (table : Table) (alpha beta best : Int),
    best ≤ (abMaxLoop child P ms table alpha beta best).1 := by
  induction ms with
  | nil => intro table alpha beta best; simp [abMaxLoop]
  | cons m rest ih =>
    intro table alpha beta best
    simp only [abMaxLoop]
    split
    · exact le_max_left _ _
    · exact le_trans (le_max_left _ _) (ih _ _ _ _)

lemma abMaxLoop_alpha_eq (child : Table → Int → Int → Pieces → Int × Table) (P : Pieces)
    (ms : List Move) : ∀ (table : Table) (alpha beta best : Int), best ≤ alpha →
    (abMaxLoop child P ms table alpha beta best).2.1 =
      max alpha (abMaxLoop child P ms table alpha beta best).1 := by
  induction ms with
  | nil =>
    intro table alpha beta best h
    simp [abMaxLoop, max_eq_left h]
  | cons m rest ih =>
    intro table alpha beta best h
    simp only [abMaxLoop]
    split
    · dsimp only
      rw [← max_assoc, max_eq_left h]
    · rw [ih _ _ _ _ (max_le_max h le_rfl)]
      have hb : (child table alpha beta (play_move P m)).1 ≤
          (abMaxLoop child P rest (child table alpha beta (play_move P m)).2
            (max alpha (child table alpha beta (play_move P m)).1) beta
            (max best (child table alpha beta (play_move P m)).1)).1 :=
        le_trans (le_max_right _ _) (abMaxLoop_best_le _ _ _ _ _ _ _)
      rw [max_assoc, max_eq_right hb]

lemma abMinLoop_le_best (child : Table → Int → Int → Pieces → Int × Table) (P : Pieces)
    (ms : List Move) : ∀ (table : Table) (alpha beta best : Int),
    (abMinLoop child P ms table alpha beta best).1 ≤ best := by
  induction ms with
  | nil => intro table alpha beta best; simp [abMinLoop]
  | cons m rest ih =>
    intro table alpha beta best
    simp only [abMinLoop]
    split
    · exact min_le_left _ _
    · exact le_trans (ih _ _ _ _) (min_le_left _ _)

lemma abMinLoop_beta_eq (child : Table → Int → Int → Pieces → Int × Table) (P : Pieces)
    (ms : List Move) : ∀ (table : Table) (alpha beta best : Int), beta ≤ best →
    (abMinLoop child P ms table alpha beta best).2.1 =
      min beta (abMinLoop child P ms table alpha beta best).1 := by
  induction ms with
  | nil =>
    intro table alpha beta best h
    simp [abMinLoop, min_eq_left h]
  | cons m rest ih =>
    intro table alpha beta best h
    simp only [abMinLoop]
    split
    · dsimp only
      rw [← min_assoc, min_eq_left h]
    · rw [ih _ _ _ _ (min_le_min h le_rfl)]
      have hb : (abMinLoop child P rest (child table alpha beta (play_move P m)).2 alpha
            (min beta (child table alpha beta (play_move P m)).1)
            (min best (child table alpha beta (play_move P m)).1)).1 ≤
          (child table alpha beta (play_move P m)).1 :=
        le_trans (abMinLoop_le_best _ _ _ _ _ _ _) (min_le_right _ _)
      rw [min_assoc, min_eq_right hb]

lemma tightenedAlpha_none (table : Table) (key : Nat) (depth : Nat) (alpha : Int)
    (h : tableLookup table key = none) :
    tightenedAlpha table key depth alpha = alpha := by
  unfold tightenedAlpha
  rw [h]

lemma tightenedAlpha_some (table : Table) (key : Nat) (depth : Nat) (alpha : Int)
    (d2 : Nat) (s : Int) (f : Flag) (h : tableLookup table key = some (d2, s, f)) :
    tightenedAlpha table key depth alpha =
      if d2 = depth ∧ f = Flag.alpha then max alpha s else alpha := by
  unfold tightenedAlpha
  rw [h]

lemma tightenedBeta_none (table : Table) (key : Nat) (depth : Nat) (beta : Int)
    (h : tableLookup table key = none) :
    tightenedBeta table key depth beta = beta := by
  unfold tightenedBeta
  rw [h]

lemma tightenedBeta_some (table : Table) (key : Nat) (depth : Nat) (beta : Int)
    (d2 : Nat) (s : Int) (f : Flag) (h : tableLookup table key = some (d2, s, f)) :
    tightenedBeta table key depth beta =
      if d2 = depth ∧ f = Flag.beta then min beta s else beta := by
  unfold tightenedBeta
  rw [h]

lemma le_tightenedAlpha (table : Table) (key : Nat) (depth : Nat) (alpha : Int) :
    alpha ≤ tightenedAlpha table key depth alpha := by
  rcases h : tableLookup table key with _ | ⟨d2, s, f⟩
  · rw [tightenedAlpha_none table key depth alpha h]
  · rw [tightenedAlpha_some table key depth alpha d2 s f h]
    split
    · exact le_max_left _ _
    · exact le_refl _

lemma tightenedBeta_le (table : Table) (key : Nat) (depth : Nat) (beta : Int) :
    tightenedBeta table key depth beta ≤ beta := by
  rcases h : tableLookup table key with _ | ⟨d2, s, f⟩
  · rw [tightenedBeta_none table key depth beta h]
  · rw [tightenedBeta_some table key depth beta d2 s f h]
    split
    · exact min_le_left _ _
    · exact le_refl _

lemma le_foldl_max (l : List Int) : ∀ b : Int, b ≤ l.foldl max b := by
  induction l with
  | nil => intro b; exact le_refl _
  | cons a t ih => intro b; exact le_trans (le_max_left b a) (ih (max b a))

lemma mem_le_foldl_max (l : List Int) : ∀ (b s : Int), s ∈ l → s ≤ l.foldl max b := by
  induction l with
  | nil => intro b s hs; cases hs
  | cons a t ih =>
    intro b s hs
    rcases List.mem_cons.1 hs with rfl | hs2
    · exact le_trans (le_max_right b s) (le_foldl_max t (max b s))
    · exact ih _ _ hs2

lemma foldl_min_le (l : List Int) : ∀ b : Int, l.foldl min b ≤ b := by
  induction l with
  | nil => intro b; exact le_refl _
  | cons a t ih => intro b; exact le_trans (ih (min b a)) (min_le_left b a)

lemma foldl_min_le_mem (l : List Int) : ∀ (b s : Int), s ∈ l → l.foldl min b ≤ s := by
  induction l with
  | nil => intro b s hs; cases hs
  | cons a t ih =>
    intro b s hs
    rcases List.mem_cons.1 hs with rfl | hs2
    · exact le_trans (foldl_min_le t (min b s)) (min_le_right b s)
    · exact ih _ _ hs2

/-- The fail-soft accumulator of the maximizing loop is exactly the
maximum (folded from the initial best) of the child scores it
examines. -/
lemma abMaxLoop_best_eq (child : Table → Int → Int → Pieces → Int × Table) (P : Pieces)
    (ms : List Move) : ∀ (table : Table) (alpha beta best : Int),
    (abMaxLoop child P ms table alpha beta best).1 =
      (abMaxScores child P ms table alpha beta).foldl max best := by
  induction ms with
  | nil => intro table alpha beta best; rfl
  | cons m rest ih =>
    intro table alpha beta best
    simp only [abMaxLoop, abMaxScores]
    by_cases hb : beta ≤ max alpha (child table alpha beta (play_move P m)).1
    · simp only [if_pos hb, List.foldl_cons, List.foldl_nil]
    · simp only [if_neg hb, List.foldl_cons]
      exact ih _ _ _ _

/-- The fail-soft accumulator of the minimizing loop is exactly the
minimum (folded from the initial best) of the child scores it
examines. -/
lemma abMinLoop_best_eq (child : Table → Int → Int → Pieces → Int × Table) (P : Pieces)
    (ms : List Move) : ∀ (table : Table) (alpha beta best : Int),
    (abMinLoop child P ms table alpha beta best).1 =
      (abMinScores child P ms table alpha beta).foldl min best := by
  induction ms with
  | nil => intro table alpha beta best; rfl
  | cons m rest ih =>
    intro table alpha beta best
    simp only [abMinLoop, abMinScores]
    by_cases hb : min beta (child table alpha beta (play_move P m)).1 ≤ alpha
    · simp only [if_pos hb, List.foldl_cons, List.foldl_nil]
    · simp only [if_neg hb, List.foldl_cons]
      exact ih _ _ _ _

/-- Unfolding of a maximizing alphabeta call that reaches its move loop
(same-depth Exact hits and inverted tightened windows excluded by
noEarlyReturn): the loop runs on the lookup-tightened window and the
result is stored, tagged against the original alpha and the tightened
beta. -/
lemma alphabeta_succ_max (d : Nat) (table : Table) (alpha beta : Int) (P : Pieces)
    (hne : noEarlyReturn table (encode_pieces P false) (d + 1) alpha beta)
    (h1 : (P 1).position ≠ 12) (h5 : (P 5).position ≠ 12)
    (hf : ¬(P 1).position < 3) :
    alphabeta (d + 1) table false alpha beta P =
      ((abMaxLoop (fun t a b p => alphabeta d t true a b p) P (possible_moves P false)
          table (tightenedAlpha table (encode_pieces P false) (d + 1) alpha)
          (tightenedBeta table (encode_pieces P false) (d + 1) beta) I32_MIN).2.1,
        tableInsert (abMaxLoop (fun t a b p => alphabeta d t true a b p) P (possible_moves P false)
          table (tightenedAlpha table (encode_pieces P false) (d + 1) alpha)
          (tightenedBeta table (encode_pieces P false) (d + 1) beta) I32_MIN).2.2
          (encode_pieces P false)
          (d + 1,
            (abMaxLoop (fun t a b p => alphabeta d t true a b p) P (possible_moves P false)
          table (tightenedAlpha table (encode_pieces P false) (d + 1) alpha)
          (tightenedBeta table (encode_pieces P false) (d + 1) beta) I32_MIN).1,
            if (abMaxLoop (fun t a b p => alphabeta d t true a b p) P (possible_moves P false)
          table (tightenedAlpha table (encode_pieces P false) (d + 1) alpha)
          (tightenedBeta table (encode_pieces P false) (d + 1) beta) I32_MIN).1 ≤ alpha then Flag.beta
            else if tightenedBeta table (encode_pieces P false) (d + 1) beta ≤
                (abMaxLoop (fun t a b p => alphabeta d t true a b p) P (possible_moves P false)
          table (tightenedAlpha table (encode_pieces P false) (d + 1) alpha)
          (tightenedBeta table (encode_pieces P false) (d + 1) beta) I32_MIN).1 then Flag.alpha
            else Flag.exact)) := by
  obtain ⟨hnex, hlt⟩ := hne
  rcases hlk : tableLookup table (encode_pieces P false) with _ | ⟨d2, s, f⟩
  · rw [tightenedAlpha_none table (encode_pieces P false) (d + 1) alpha hlk,
      tightenedBeta_none table (encode_pieces P false) (d + 1) beta hlk]
    rw [alphabeta, abStep, hlk, abScore]
    simp only [Nat.succ_ne_zero, if_false, if_neg h1, if_neg h5]
    norm_num [hf]
  · have hnex2 : ¬(d2 = d + 1 ∧ f = Flag.exact) := by
      refine hnex (d2, s, f) ?_
      rw [hlk]
      simp
    rw [tightenedAlpha_some table (encode_pieces P false) (d + 1) alpha d2 s f hlk,
      tightenedBeta_some table (encode_pieces P false) (d + 1) beta d2 s f hlk]
    rw [tightenedAlpha_some table (encode_pieces P false) (d + 1) alpha d2 s f hlk,
      tightenedBeta_some table (encode_pieces P false) (d + 1) beta d2 s f hlk] at hlt
    rw [alphabeta, abStep, hlk]
    dsimp only
    rw [if_neg hnex2, if_neg (not_le.2 hlt), abScore]
    simp only [Nat.succ_ne_zero, if_false, if_neg h1, if_neg h5]
    norm_num [hf]

/-- Unfolding of a minimizing alphabeta call that reaches its move loop:
the loop runs on the lookup-tightened window and the result is stored,
tagged against the original beta and the tightened alpha. -/
lemma alphabeta_succ_min (d : Nat) (table : Table) (alpha beta : Int) (P : Pieces)
    (hne : noEarlyReturn table (encode_pieces P true) (d + 1) alpha beta)
    (h1 : (P 1).position ≠ 12) (h5 : (P 5).position ≠ 12)
    (ht : ¬8 < (P 5).position) :
    alphabeta (d + 1) table true alpha beta P =
      ((abMinLoop (fun t a b p => alphabeta d t false a b p) P (possible_moves P true)
          table (tightenedAlpha table (encode_pieces P true) (d + 1) alpha)
          (tightenedBeta table (encode_pieces P true) (d + 1) beta) I32_MAX).2.1,
        tableInsert (abMinLoop (fun t a b p => alphabeta d t false a b p) P (possible_moves P true)
          table (tightenedAlpha table (encode_pieces P true) (d + 1) alpha)
          (tightenedBeta table (encode_pieces P true) (d + 1) beta) I32_MAX).2.2
          (encode_pieces P true)
          (d + 1,
            (abMinLoop (fun t a b p => alphabeta d t false a b p) P (possible_moves P true)
          table (tightenedAlpha table (encode_pieces P true) (d + 1) alpha)
          (tightenedBeta table (encode_pieces P true) (d + 1) beta) I32_MAX).1,
            if beta ≤ (abMinLoop (fun t a b p => alphabeta d t false a b p) P (possible_moves P true)
          table (tightenedAlpha table (encode_pieces P true) (d + 1) alpha)
          (tightenedBeta table (encode_pieces P true) (d + 1) beta) I32_MAX).1 then Flag.alpha
            else if (abMinLoop (fun t a b p => alphabeta d t false a b p) P (possible_moves P true)
          table (tightenedAlpha table (encode_pieces P true) (d + 1) alpha)
          (tightenedBeta table (encode_pieces P true) (d + 1) beta) I32_MAX).1 ≤
                tightenedAlpha table (encode_pieces P true) (d + 1) alpha then Flag.beta
            else Flag.exact)) := by
  obtain ⟨hnex, hlt⟩ := hne
  rcases hlk : tableLookup table (encode_pieces P true) with _ | ⟨d2, s, f⟩
  · rw [tightenedAlpha_none table (encode_pieces P true) (d + 1) alpha hlk,
      tightenedBeta_none table (encode_pieces P true) (d + 1) beta hlk]
    rw [alphabeta, abStep, hlk, abScore]
    simp only [Nat.succ_ne_zero, if_false, if_neg h1, if_neg h5]
    norm_num [ht]
  · have hnex2 : ¬(d2 = d + 1 ∧ f = Flag.exact) := by
      refine hnex (d2, s, f) ?_
      rw [hlk]
      simp
    rw [tightenedAlpha_some table (encode_pieces P true) (d + 1) alpha d2 s f hlk,
      tightenedBeta_some table (encode_pieces P true) (d + 1) beta d2 s f hlk]
    rw [tightenedAlpha_some table (encode_pieces P true) (d + 1) alpha d2 s f hlk,
      tightenedBeta_some table (encode_pieces P true) (d + 1) beta d2 s f hlk] at hlt
    rw [alphabeta, abStep, hlk]
    dsimp only
    rw [if_neg hnex2, if_neg (not_le.2 hlt), abScore]
    simp only [Nat.succ_ne_zero, if_false, if_neg h1, if_neg h5]
    norm_num [ht]

lemma MOVE_DICT_entry (n : Nat) (d : Int × Int) (hd : d ∈ MOVE_DICT n) :
    (-1 ≤ d.1 ∧ d.1 ≤ 1 ∧ -1 ≤ d.2 ∧ d.2 ≤ 1) ∧ ¬(d.1 = 0 ∧ d.2 = 0) := by
  rcases n with _ | _ | _ | _ | n
  · simp only [MOVE_DICT, List.mem_singleton] at hd
    subst hd; refine ⟨by norm_num, by norm_num⟩
  · simp only [MOVE_DICT, List.mem_cons, List.mem_singleton, List.not_mem_nil, or_false] at hd
    rcases hd with rfl | rfl | rfl | rfl <;> refine ⟨by norm_num, by norm_num⟩
  · simp only [MOVE_DICT, List.mem_cons, List.mem_singleton, List.not_mem_nil, or_false] at hd
    rcases hd with rfl | rfl | rfl | rfl <;> refine ⟨by norm_num, by norm_num⟩
  · simp only [MOVE_DICT, List.mem_cons, List.mem_singleton, List.not_mem_nil, or_false] at hd
    rcases hd with rfl | rfl | rfl | rfl | rfl | rfl | rfl | rfl <;> refine ⟨by norm_num, by norm_num⟩
  · have he : MOVE_DICT (n + 4) = [(0, 1), (1, 0), (0, -1), (-1, 0), (1, 1), (-1, 1)] := rfl
    rw [he] at hd
    simp only [List.mem_cons, List.mem_singleton, List.not_mem_nil, or_false] at hd
    rcases hd with rfl | rfl | rfl | rfl | rfl | rfl <;> refine ⟨by norm_num, by norm_num⟩

lemma movesFor_from (P : Pieces) (b : List Nat) (turn : Bool) (i : Fin 8) (m : Move)
    (hm : m ∈ movesFor P b turn i) : m.from' = i := by
  unfold movesFor at hm
  split at hm
  · cases hm
  · split at hm
    · split at hm
      · rcases List.mem_map.1 hm with ⟨j, _, rfl⟩; rfl
      · cases hm
    · rcases List.mem_filterMap.1 hm with ⟨d, _, heq⟩
      dsimp only at heq
      split_ifs at heq
      all_goals try cases heq
      all_goals rfl

lemma mem_possible_moves (P : Pieces) (turn : Bool) (m : Move) :
    m ∈ possible_moves P turn ↔ m ∈ movesFor P (boardOf P) turn m.from' := by
  unfold possible_moves
  rw [mem_foldr_append]
  constructor
  · rintro ⟨k, _, hmk⟩
    rw [movesFor_from _ _ _ _ _ hmk]
    exact hmk
  · intro h
    exact ⟨m.from', List.mem_finRange _, h⟩

lemma board_dest_arith (px : Nat) (dx dy : Int)
    (hdx : -1 ≤ dx ∧ dx ≤ 1) (hdy : -1 ≤ dy ∧ dy ≤ 1) (hnz : ¬(dx = 0 ∧ dy = 0))
    (hb : 0 ≤ (px : Int) % 3 + dx ∧ (px : Int) % 3 + dx < 3 ∧
      0 ≤ (px : Int) / 3 + dy ∧ (px : Int) / 3 + dy < 4)
    (hne12 : px ≠ 12) :
    (3 * ((px : Int) / 3 + dy) + ((px : Int) % 3 + dx)).toNat < 12 ∧
      px ≠ (3 * ((px : Int) / 3 + dy) + ((px : Int) % 3 + dx)).toNat := by
  omega

/-- Facts the move generator guarantees about every generated move: the
mover belongs to the side to move, the destination is a board square
different from the source square, a drop goes to an empty square and a
board move never goes to a square of the mover's own side. -/
lemma pm_spec (P : Pieces) (turn : Bool) (m : Move) (hm : m ∈ possible_moves P turn) :
    (P m.from').owner = turn ∧ m.to' < 12 ∧ (P m.from').position ≠ m.to' ∧
    ((P m.from').position = 12 → (boardOf P).getD m.to' 0 = 0) ∧
    ((P m.from').position ≠ 12 → (boardOf P).getD m.to' 0 ≠ ownerVal turn) := by
  rw [mem_possible_moves] at hm
  unfold movesFor at hm
  split at hm
  · cases hm
  · next hown =>
    have hown' : (P m.from').owner = turn := by
      by_contra hc; exact hown hc
    split at hm
    · next hpos =>
      split at hm
      · rcases List.mem_map.1 hm with ⟨j, hj, hjm⟩
        have hj2 := List.mem_filter.1 hj
        have hjr : j < 12 := List.mem_range.1 hj2.1
        have hjb : (boardOf P).getD j 0 = 0 := by
          have := hj2.2
          simpa using this
        have hto : m.to' = j := by rw [← hjm]
        refine ⟨hown', by omega, by omega, fun _ => by rw [hto]; exact hjb,
          fun hc => absurd hpos hc⟩
      · cases hm
    · next hpos =>
      rcases List.mem_filterMap.1 hm with ⟨d, hd, heq⟩
      rcases MOVE_DICT_entry _ _ hd with ⟨⟨hd1, hd2, hd3, hd4⟩, hdnz⟩
      dsimp only at heq
      rcases Bool.dichotomy turn with rfl | rfl
      · try simp only [Bool.false_eq_true, if_false] at heq
        split at heq
        · next hbnd =>
          split at heq
          · next hocc =>
            have hminj := Option.some.inj heq
            have hto : m.to' =
                (3 * (((P m.from').position : Int) / 3 + -d.2) +
                  (((P m.from').position : Int) % 3 + -d.1)).toNat := by
              rw [← hminj]
            have harith := board_dest_arith (P m.from').position (-d.1) (-d.2)
              ⟨by omega, by omega⟩ ⟨by omega, by omega⟩ (by omega) hbnd hpos
            refine ⟨hown', by omega, by omega, fun hc => absurd hc hpos, fun _ => ?_⟩
            rw [hto, ← hown']
            exact hocc
          · cases heq
        · cases heq
      · try simp only [if_true] at heq
        split at heq
        · next hbnd =>
          split at heq
          · next hocc =>
            have hminj := Option.some.inj heq
            have hto : m.to' =
                (3 * (((P m.from').position : Int) / 3 + d.2) +
                  (((P m.from').position : Int) % 3 + d.1)).toNat := by
              rw [← hminj]
            have harith := board_dest_arith (P m.from').position d.1 d.2
              ⟨by omega, by omega⟩ ⟨by omega, by omega⟩ (by omega) hbnd hpos
            refine ⟨hown', by omega, by omega, fun hc => absurd hc hpos, fun _ => ?_⟩
            rw [hto, ← hown']
            exact hocc
          · cases heq
        · cases heq

lemma boardStep_length (P : Pieces) (L : List (Fin 8)) : ∀ b : List Nat,
    (L.foldl (fun b k =>
      if (P k).position < 12 then b.set (P k).position (ownerVal (P k).owner) else b) b).length
      = b.length := by
  induction L with
  | nil => intro b; rfl
  | cons a rest ih =>
    intro b
    rw [List.foldl_cons, ih]
    split
    · rw [List.length_set]
    · rfl

lemma boardStep_getD_of_not_mem (P : Pieces) (L : List (Fin 8)) : ∀ (b : List Nat) (j : Nat),
    (∀ k ∈ L, (P k).position ≠ j) →
    (L.foldl (fun b k =>
      if (P k).position < 12 then b.set (P k).position (ownerVal (P k).owner) else b) b).getD j 0
      = b.getD j 0 := by
  induction L with
  | nil => intro b j _; rfl
  | cons a rest ih =>
    intro b j hne
    rw [List.foldl_cons, ih _ _ (fun k hk => hne k (List.mem_cons_of_mem _ hk))]
    split
    · rw [List.getD_eq_getElem?_getD, List.getElem?_set_ne
        (hne a (List.mem_cons_self _ _)), ← List.getD_eq_getElem?_getD]
    · rfl

lemma boardStep_getD_of_mem (P : Pieces) (L : List (Fin 8)) : ∀ (b : List Nat) (j : Nat)
    (k : Fin 8), L.Nodup → k ∈ L → (P k).position = j → j < 12 → b.length = 12 →
    (∀ k' ∈ L, (P k').position = j → k' = k) →
    (L.foldl (fun b k =>
      if (P k).position < 12 then b.set (P k).position (ownerVal (P k).owner) else b) b).getD j 0
      = ownerVal (P k).owner := by
  induction L with
  | nil => intro b j k _ hk; cases hk
  | cons a rest ih =>
    intro b j k hnd hk hpos hj hlen huniq
    rcases List.mem_cons.1 hk with rfl | hmem
    · rw [List.foldl_cons]
      have hrest : ∀ k' ∈ rest, (P k').position ≠ j := by
        intro k' hk' hc
        exact (List.nodup_cons.1 hnd).1
          ((huniq k' (List.mem_cons_of_mem _ hk') hc) ▸ hk')
      rw [boardStep_getD_of_not_mem P rest _ _ hrest]
      rw [if_pos (hpos ▸ hj), hpos]
      rw [List.getD_eq_getElem?_getD, List.getElem?_set_self (by omega),
        Option.getD_some]
    · have ha : a ≠ k := fun h => (List.nodup_cons.1 hnd).1 (h ▸ hmem)
      rw [List.foldl_cons]
      refine ih _ _ _ (List.nodup_cons.1 hnd).2 hmem hpos hj ?_
        (fun k' hk' hp => huniq k' (List.mem_cons_of_mem _ hk') hp)
      split
      · rw [List.length_set, hlen]
      · exact hlen

lemma boardOf_length (P : Pieces) : (boardOf P).length = 12 := by
  unfold boardOf
  rw [boardStep_length]
  rfl

lemma replicate_getD_zero (j : Nat) : (List.replicate 12 (0 : Nat)).getD j 0 = 0 := by
  rw [List.getD_eq_getElem?_getD, List.getElem?_replicate]
  split <;> rfl

lemma boardOf_getD_occupied (P : Pieces) (hI : occInv P) (k : Fin 8) (j : Nat)
    (hk : (P k).position = j) (hj : j < 12) :
    (boardOf P).getD j 0 = ownerVal (P k).owner := by
  unfold boardOf
  refine boardStep_getD_of_mem P _ _ _ _ (List.nodup_finRange 8) (List.mem_finRange k)
    hk hj (by simp) ?_
  intro k' _ hp
  by_contra hne
  exact hI.2 k' k hne (by omega) (by omega) (by rw [hp, hk])

lemma boardOf_getD_empty_iff (P : Pieces) (hI : occInv P) (j : Nat) (hj : j < 12) :
    ((boardOf P).getD j 0 = 0 ↔ ∀ k, (P k).position ≠ j) := by
  constructor
  · intro h0 k hk
    have := boardOf_getD_occupied P hI k j hk hj
    rw [h0] at this
    unfold ownerVal at this
    split at this <;> omega
  · intro hall
    unfold boardOf
    rw [boardStep_getD_of_not_mem P _ _ _ (fun k _ => hall k)]
    exact replicate_getD_zero j

lemma find?_eq_some_of_unique {α : Type} (p : α → Bool) (L : List α) (a : α)
    (ha : a ∈ L) (hpa : p a = true) (huniq : ∀ b ∈ L, p b = true → b = a) :
    L.find? p = some a := by
  induction L with
  | nil => cases ha
  | cons b rest ih =>
    by_cases hpb : p b = true
    · rw [List.find?_cons_of_pos _ hpb, huniq b (List.mem_cons_self _ _) hpb]
    · rw [List.find?_cons_of_neg _ (by simpa using hpb)]
      have har : a ∈ rest := by
        rcases List.mem_cons.1 ha with rfl | h
        · exact absurd hpa hpb
        · exact h
      exact ih har (fun c hc hpc => huniq c (List.mem_cons_of_mem _ hc) hpc)

lemma capture_index_pos (P : Pieces) (dest : Nat) (j : Fin 8)
    (h : capture_index P dest = some j) : (P j).position = dest := by
  have := List.find?_some h
  simpa using this

lemma capture_index_eq_some (P : Pieces) (hI : occInv P) (dest : Nat) (j : Fin 8)
    (hj : (P j).position = dest) (hd : dest < 12) : capture_index P dest = some j := by
  unfold capture_index
  refine find?_eq_some_of_unique _ _ _ (List.mem_finRange j) (by simpa using hj) ?_
  intro k _ hk
  have hk' : (P k).position = dest := by simpa using hk
  by_contra hne
  exact hI.2 k j hne (by omega) (by omega) (by rw [hk', hj])

lemma capture_index_eq_none (P : Pieces) (dest : Nat)
    (h : ∀ k, (P k).position ≠ dest) : capture_index P dest = none := by
  unfold capture_index
  rw [List.find?_eq_none]
  intro k _
  simpa using h k

lemma play_move_apply_other (P : Pieces) (m : Move) (k : Fin 8) (hf : k ≠ m.from')
    (hc : capture_index P m.to' ≠ some k) : play_move P m k = P k := by
  unfold play_move
  rcases hj : capture_index P m.to' with _ | j
  · simp only [hj]
    split
    · simp [hf]
    · simp [hf]
  · have hkj : k ≠ j := fun h => hc (by rw [h, hj])
    simp only [hj]
    split
    · simp [hf, hkj]
    · simp [hf, hkj]

lemma play_move_apply_mover (P : Pieces) (m : Move)
    (hne : (P m.from').position ≠ m.to') :
    play_move P m m.from' =
      { kind := if (P m.from').kind = Kind.chick ∧ (P m.from').position < 12 ∧
            (((P m.from').owner = true ∧ 8 < m.to') ∨ ((P m.from').owner = false ∧ m.to' < 3))
          then Kind.hen else (P m.from').kind,
        position := m.to',
        owner := (P m.from').owner } := by
  unfold play_move
  rcases hj : capture_index P m.to' with _ | j
  · simp only [hj]
    split
    · next hcond => simp [hcond]
    · next hcond => simp [hcond]
  · have hjf : m.from' ≠ j := by
      intro h
      exact hne (by rw [h]; exact capture_index_pos _ _ _ hj)
    simp only [hj]
    split
    · next hcond => simp [hcond, hjf]
    · next hcond => simp [hcond, hjf]

lemma play_move_apply_captured (P : Pieces) (m : Move) (j : Fin 8)
    (hj : capture_index P m.to' = some j) (hjf : j ≠ m.from') :
    play_move P m j =
      { kind := if (P j).kind = Kind.hen then Kind.chick else (P j).kind,
        position := 12,
        owner := (P m.from').owner } := by
  unfold play_move
  simp only [hj]
  split
  · simp [hjf]
  · simp [hjf]

lemma play_move_position (P : Pieces) (m : Move) (hne : (P m.from').position ≠ m.to')
    (k : Fin 8) :
    (play_move P m k).position =
      if k = m.from' then m.to'
      else if capture_index P m.to' = some k then 12 else (P k).position := by
  by_cases hkf : k = m.from'
  · subst hkf
    rw [play_move_apply_mover P m hne, if_pos rfl]
  · rw [if_neg hkf]
    by_cases hkc : capture_index P m.to' = some k
    · rw [play_move_apply_captured P m k hkc hkf, if_pos hkc]
    · rw [play_move_apply_other P m k hkf hkc, if_neg hkc]

/-- The occupancy invariant is preserved by applying any generated move. -/
lemma occInv_play_move (P : Pieces) (turn : Bool) (m : Move)
    (hI : occInv P) (hm : m ∈ possible_moves P turn) : occInv (play_move P m) := by
  obtain ⟨hown, hto, hne, hdrop, hboard⟩ := pm_spec P turn m hm
  have hposf := play_move_position P m hne
  constructor
  · intro k
    rw [hposf k]
    split_ifs with h1 h2
    · omega
    · omega
    · exact hI.1 k
  · intro k l hkl hk hl heq
    rw [hposf k] at hk heq
    rw [hposf l] at hl heq
    by_cases hkf : k = m.from' <;> by_cases hlf : l = m.from'
    · exact hkl (hkf.trans hlf.symm)
    · rw [if_pos hkf] at heq
      rw [if_neg hlf] at hl heq
      by_cases hlc : capture_index P m.to' = some l
      · rw [if_pos hlc] at hl
        omega
      · rw [if_neg hlc] at hl heq
        exact hlc (capture_index_eq_some P hI m.to' l heq.symm hto)
    · rw [if_neg hkf] at hk heq
      rw [if_pos hlf] at heq
      by_cases hkc : capture_index P m.to' = some k
      · rw [if_pos hkc] at hk
        omega
      · rw [if_neg hkc] at hk heq
        exact hkc (capture_index_eq_some P hI m.to' k heq hto)
    · rw [if_neg hkf] at hk heq
      rw [if_neg hlf] at hl heq
      by_cases hkc : capture_index P m.to' = some k
      · rw [if_pos hkc] at hk
        omega
      · by_cases hlc : capture_index P m.to' = some l
        · rw [if_pos hlc] at hl
          omega
        · rw [if_neg hkc] at hk heq
          rw [if_neg hlc] at hl heq
          exact hI.2 k l hkl hk hl heq

/-- No promoted pawn can enter a hand through a generated move. -/
lemma handNoHen_play_move (P : Pieces) (turn : Bool) (m : Move)
    (hH : handNoHen P) (hm : m ∈ possible_moves P turn) : handNoHen (play_move P m) := by
  obtain ⟨hown, hto, hne, _, _⟩ := pm_spec P turn m hm
  intro k hk12
  by_cases hkf : k = m.from'
  · subst hkf
    rw [play_move_apply_mover P m hne] at hk12
    dsimp only at hk12
    omega
  · by_cases hkc : capture_index P m.to' = some k
    · rw [play_move_apply_captured P m k hkc hkf]
      dsimp only
      split
      · simp
      · next hnh => exact hnh
    · rw [play_move_apply_other P m k hkf hkc]
      rw [play_move_apply_other P m k hkf hkc] at hk12
      exact hH k hk12

lemma handNoHen_playSeq : ∀ (ms : List Move) (P : Pieces) (t : Bool) (Q : Pieces),
    handNoHen P → playSeq P t ms = some Q → handNoHen Q := by
  intro ms
  induction ms with
  | nil =>
    intro P t Q hH hpl
    rw [playSeq] at hpl
    rw [← Option.some.inj hpl]
    exact hH
  | cons m rest ih =>
    intro P t Q hH hpl
    rw [playSeq] at hpl
    split at hpl
    · next hmem => exact ih _ _ _ (handNoHen_play_move P t m hH hmem) hpl
    · cases hpl

lemma count_eq_of_nodup {α : Type} [DecidableEq α] (L : List α) (hnd : L.Nodup) (a : α) :
    L.count a = if a ∈ L then 1 else 0 := by
  induction L with
  | nil => simp
  | cons b rest ih =>
    rcases List.nodup_cons.1 hnd with ⟨hb, hrest⟩
    by_cases hab : b = a
    · subst hab
      simp [List.count_cons, ih hrest, hb]
    · simp [List.count_cons, ih hrest, hab, Ne.symm hab]

lemma count_map_pair (l : List Nat) (i : Fin 8) (j : Nat) :
    ((l.map fun j => ({ from' := i, to' := j } : Move)).count ⟨i, j⟩) = l.count j := by
  induction l with
  | nil => rfl
  | cons a rest ih =>
    rw [List.map_cons, List.count_cons, List.count_cons, ih]
    by_cases h : a = j
    · subst h; simp
    · rw [if_neg (by simp [Move.mk.injEq, h]), if_neg (by simpa using h)]

lemma count_possible_moves_eq (P : Pieces) (turn : Bool) (i : Fin 8) (j : Nat) :
    (possible_moves P turn).count ⟨i, j⟩ =
      (movesFor P (boardOf P) turn i).count ⟨i, j⟩ := by
  unfold possible_moves
  rw [count_foldr_append]
  refine sum_map_eq_single _ _ i (List.nodup_finRange 8) (List.mem_finRange i) ?_
  intro k _ hki
  rw [List.count_eq_zero]
  intro hc
  exact hki (movesFor_from P (boardOf P) turn k ⟨i, j⟩ hc).symm

/-
Claim theorems.
-/

/-- C4 (confirmed).  Every move returned by the move generator, applied by
play_move to a position satisfying the occupancy invariant (each of the 8
token slots on a board square 0..11 or captured, no two non-captured
tokens on the same square), yields a position that satisfies the same
invariant.  The successor is again a total map from the 8 token slots to
single pieces, so exactly one piece per original token remains: no piece
is duplicated or lost. -/
theorem C4_apply_preserves_occupancy (P : Pieces) (turn : Bool) (m : Move)
    (hI : occInv P) (hm : m ∈ possible_moves P turn) : occInv (play_move P m) :=
  occInv_play_move P turn m hI hm

/-- Witness for C4 at the standard initial position and the chick capture
4 to 7. -/
theorem C4_apply_preserves_occupancy_witness :
    occInv stdStart ∧ (⟨7, 7⟩ : Move) ∈ possible_moves stdStart true ∧
      occInv (play_move stdStart ⟨7, 7⟩) :=
  ⟨by decide, by decide,
    C4_apply_preserves_occupancy stdStart true ⟨7, 7⟩ (by decide) (by decide)⟩

/-- C7 (confirmed).  For a captured piece of the side to move: if it is
canonical (index < 4, or the paired token has a different owner, or the
paired token is on the board) it generates exactly one drop move onto
every empty square and no other moves; a non-canonical captured piece
generates no moves at all; consequently when both paired tokens are in
the mover's hand, the higher token (index at least 4) emits no drop, so
no two drops with the same destination ever come from paired same-kind
tokens both in hand. -/
theorem C7_drop_generation (P : Pieces) (turn : Bool) (i : Fin 8)
    (hI : occInv P) (hpos : (P i).position = 12) (hown : (P i).owner = turn) :
    (∀ j : Nat, (possible_moves P turn).count ⟨i, j⟩ =
        if droppableIdx P i ∧ j < 12 ∧ (∀ k, (P k).position ≠ j) then 1 else 0)
    ∧ (¬droppableIdx P i → ∀ j : Nat, ({ from' := i, to' := j } : Move) ∉ possible_moves P turn)
    ∧ (4 ≤ i.val → (P (pairIdx i)).owner = turn → (P (pairIdx i)).position = 12 →
        ∀ j : Nat, ({ from' := i, to' := j } : Move) ∉ possible_moves P turn) := by
  have hmf : movesFor P (boardOf P) turn i =
      if droppableIdx P i then
        ((List.range 12).filter fun j => (boardOf P).getD j 0 == 0).map
          (fun j => { from' := i, to' := j })
      else [] := by
    unfold movesFor
    rw [if_neg (by rw [hown]; simp), if_pos hpos]
  have ha : ∀ j : Nat, (possible_moves P turn).count ⟨i, j⟩ =
      if droppableIdx P i ∧ j < 12 ∧ (∀ k, (P k).position ≠ j) then 1 else 0 := by
    intro j
    rw [count_possible_moves_eq, hmf]
    by_cases hdr : droppableIdx P i
    · rw [if_pos hdr, count_map_pair,
        count_eq_of_nodup _ ((List.nodup_range 12).filter _) j]
      have hiff : (j ∈ (List.range 12).filter fun j => (boardOf P).getD j 0 == 0) ↔
          (droppableIdx P i ∧ j < 12 ∧ ∀ k, (P k).position ≠ j) := by
        rw [List.mem_filter, List.mem_range]
        constructor
        · rintro ⟨hj, hb⟩
          exact ⟨hdr, hj, (boardOf_getD_empty_iff P hI j hj).1 (by simpa using hb)⟩
        · rintro ⟨_, hj, hall⟩
          exact ⟨hj, by simpa using (boardOf_getD_empty_iff P hI j hj).2 hall⟩
      rw [if_congr hiff rfl rfl]
    · rw [if_neg hdr, if_neg (fun hcond => hdr hcond.1)]
      rfl
  refine ⟨ha, ?_, ?_⟩
  · intro hdr j hc
    have h0 := ha j
    rw [if_neg (fun hcond => hdr hcond.1)] at h0
    exact (List.count_eq_zero.1 h0) hc
  · intro h4 hpo hpp j
    have hndr : ¬droppableIdx P i := by
      unfold droppableIdx
      push_neg
      refine ⟨by omega, ?_, by omega⟩
      rw [hpo, hown]
    intro hc
    have h0 := ha j
    rw [if_neg (fun hcond => hndr hcond.1)] at h0
    exact (List.count_eq_zero.1 h0) hc

/-- Witness for C7 at a position where both chick tokens are in black's
hand: applied at the non-canonical token 7. -/
theorem C7_drop_generation_witness :
    occInv c7WitPos ∧ (c7WitPos 7).position = 12 ∧ (c7WitPos 7).owner = true ∧
      (4 ≤ (7 : Fin 8).val → (c7WitPos (pairIdx 7)).owner = true →
        (c7WitPos (pairIdx 7)).position = 12 →
        ∀ j : Nat, ({ from' := 7, to' := j } : Move) ∉ possible_moves c7WitPos true) :=
  ⟨by decide, by decide, by decide,
    (C7_drop_generation c7WitPos true 7 (by decide) (by decide) (by decide)).2.2⟩

/-- C8 (counterexample to the claim as stated).  At c8Pos the legal move
3 to 7 of the already-promoted hen leaves the moving piece's kind hen,
yet the mover was not a chick: the claimed equivalence (kind is hen after
the move exactly when the mover was a chick promoting) fails for hen
movers. -/
theorem C8_counterexample :
    (⟨3, 7⟩ : Move) ∈ possible_moves c8Pos true ∧
    ((play_move c8Pos ⟨3, 7⟩) 3).kind = Kind.hen ∧
    (c8Pos 3).kind ≠ Kind.chick := by
  refine ⟨by decide, by decide, by decide⟩

/-- C8 (amended).  After play_move on a generated move, the moving piece's
kind is hen iff it already was hen, or it was a chick moving from a board
square into the owner's promotion band (squares above 8 for the
owner-true side, below 3 for the owner-false side); when the promotion
condition does not hold the mover's kind is unchanged, so promotion is
mandatory when triggered and a drop (source position 12) never
promotes. -/
theorem C8_promotion (P : Pieces) (turn : Bool) (m : Move)
    (hm : m ∈ possible_moves P turn) :
    (((play_move P m) m.from').kind = Kind.hen ↔
      ((P m.from').kind = Kind.hen ∨
        ((P m.from').kind = Kind.chick ∧ (P m.from').position < 12 ∧
          (((P m.from').owner = true ∧ 8 < m.to') ∨ ((P m.from').owner = false ∧ m.to' < 3)))))
    ∧ (¬((P m.from').kind = Kind.chick ∧ (P m.from').position < 12 ∧
          (((P m.from').owner = true ∧ 8 < m.to') ∨ ((P m.from').owner = false ∧ m.to' < 3))) →
        ((play_move P m) m.from').kind = (P m.from').kind) := by
  obtain ⟨-, -, hne, -, -⟩ := pm_spec P turn m hm
  rw [play_move_apply_mover P m hne]
  dsimp only
  constructor
  · constructor
    · intro hh
      by_cases hcond : ((P m.from').kind = Kind.chick ∧ (P m.from').position < 12 ∧
          (((P m.from').owner = true ∧ 8 < m.to') ∨ ((P m.from').owner = false ∧ m.to' < 3)))
      · exact Or.inr hcond
      · rw [if_neg hcond] at hh
        exact Or.inl hh
    · intro hor
      by_cases hcond : ((P m.from').kind = Kind.chick ∧ (P m.from').position < 12 ∧
          (((P m.from').owner = true ∧ 8 < m.to') ∨ ((P m.from').owner = false ∧ m.to' < 3)))
      · rw [if_pos hcond]
      · rcases hor with hh | hc
        · rwa [if_neg hcond]
        · exact absurd hc hcond
  · intro hnc
    rw [if_neg hnc]

/-- Witness for the amended C8 at the standard start: the chick capture
7 to 7 does not promote (destination 7 is outside black's band). -/
theorem C8_promotion_witness :
    (⟨7, 7⟩ : Move) ∈ possible_moves stdStart true ∧
    (((play_move stdStart ⟨7, 7⟩) (7 : Fin 8)).kind = Kind.hen ↔
      ((stdStart 7).kind = Kind.hen ∨
        ((stdStart 7).kind = Kind.chick ∧ (stdStart 7).position < 12 ∧
          (((stdStart 7).owner = true ∧ 8 < 7) ∨ ((stdStart 7).owner = false ∧ 7 < 3))))) :=
  ⟨by decide, (C8_promotion stdStart true ⟨7, 7⟩ (by decide)).1⟩

/-- C9 (confirmed).  When the destination of a generated move is occupied
by a piece, that piece belongs to the opponent and in the successor it is
captured: position 12, owner flipped to the mover's side, and kind
demoted from hen to chick (unchanged otherwise).  Moreover, along any
sequence of generated moves from a position whose hand holds no hen, no
position ever holds a hen in hand, which makes the capture demotion
idempotent across capture, drop and re-capture cycles. -/
theorem C9_capture_demotion (P : Pieces) (turn : Bool) (m : Move) (k : Fin 8)
    (hI : occInv P) (hm : m ∈ possible_moves P turn) (hk : (P k).position = m.to') :
    ((P k).owner ≠ turn ∧
      play_move P m k =
        { kind := if (P k).kind = Kind.hen then Kind.chick else (P k).kind,
          position := 12,
          owner := (P m.from').owner })
    ∧ ∀ (t : Bool) (ms : List Move) (Q : Pieces),
        handNoHen P → playSeq P t ms = some Q → handNoHen Q := by
  obtain ⟨hown, hto, hne, hdrop, hboard⟩ := pm_spec P turn m hm
  have hkf : k ≠ m.from' := fun h => hne (h ▸ hk)
  have hcap : capture_index P m.to' = some k := capture_index_eq_some P hI m.to' k hk hto
  have hocc := boardOf_getD_occupied P hI k m.to' hk hto
  have howner : (P k).owner ≠ turn := by
    by_cases hpos12 : (P m.from').position = 12
    · have h0 := hdrop hpos12
      rw [hocc] at h0
      unfold ownerVal at h0
      split at h0 <;> omega
    · have hbne := hboard hpos12
      rw [hocc] at hbne
      intro hcon
      exact hbne (by rw [hcon])
  exact ⟨⟨howner, play_move_apply_captured P m k hcap hkf⟩,
    fun t ms Q hH hpl => handNoHen_playSeq ms P t Q hH hpl⟩

/-- Witness for C9 at the standard start: black's chick captures white's
chick (token 3) on square 7; the captured token becomes a black chick in
hand, and the one-move sequence keeps the hand hen-free. -/
theorem C9_capture_demotion_witness :
    occInv stdStart ∧ (⟨7, 7⟩ : Move) ∈ possible_moves stdStart true ∧
      (stdStart 3).position = 7 ∧
      ((stdStart 3).owner ≠ true ∧
        play_move stdStart ⟨7, 7⟩ 3 =
          { kind := Kind.chick, position := 12, owner := true }) ∧
      handNoHen (play_move stdStart ⟨7, 7⟩) := by
  have h := C9_capture_demotion stdStart true ⟨7, 7⟩ 3 (by decide) (by decide) (by decide)
  exact ⟨by decide, by decide, by decide, h.1,
    h.2 true [⟨7, 7⟩] (play_move stdStart ⟨7, 7⟩) (by decide) (by decide)⟩

/-- C10 (confirmed).  play_move changes at most two slots: every slot
other than the mover and the destination occupant (capture_index, the
first slot standing on the destination square) is returned unchanged;
the mover's slot keeps its owner, has its position set to the
destination, and its kind is unchanged except for a chick promoting to
hen; and the occupant slot, when it exists, is distinct from the mover.
The input position itself is untouched: play_move is a pure function
returning a fresh map. -/
theorem C10_frame (P : Pieces) (turn : Bool) (m : Move)
    (hm : m ∈ possible_moves P turn) :
    (∀ k : Fin 8, k ≠ m.from' → capture_index P m.to' ≠ some k → play_move P m k = P k)
    ∧ ((play_move P m) m.from').position = m.to'
    ∧ ((play_move P m) m.from').owner = (P m.from').owner
    ∧ (((play_move P m) m.from').kind = (P m.from').kind ∨
        ((P m.from').kind = Kind.chick ∧ ((play_move P m) m.from').kind = Kind.hen))
    ∧ (∀ k : Fin 8, capture_index P m.to' = some k → k ≠ m.from') := by
  obtain ⟨-, hto, hne, -, -⟩ := pm_spec P turn m hm
  refine ⟨fun k hkf hkc => play_move_apply_other P m k hkf hkc, ?_, ?_, ?_, ?_⟩
  · rw [play_move_apply_mover P m hne]
  · rw [play_move_apply_mover P m hne]
  · rw [play_move_apply_mover P m hne]
    dsimp only
    split
    · next hc => exact Or.inr ⟨hc.1, rfl⟩
    · exact Or.inl rfl
  · intro k hk hcon
    exact hne (hcon ▸ capture_index_pos P m.to' k hk)

/-- Witness for C10 at the standard start with the capture 7 to 7: slot 0
is untouched and the mover's slot receives position 7. -/
theorem C10_frame_witness :
    (⟨7, 7⟩ : Move) ∈ possible_moves stdStart true ∧
      play_move stdStart ⟨7, 7⟩ 0 = stdStart 0 ∧
      ((play_move stdStart ⟨7, 7⟩) (7 : Fin 8)).position = 7 := by
  have h := C10_frame stdStart true ⟨7, 7⟩ (by decide)
  exact ⟨by decide, h.1 0 (by decide) (by decide), h.2.1⟩

/-- C2 (counterexample to the claim as stated).  At depth 0, with black to
move and the black royal already on try square 9 (both royals on the
board), alphabeta returns the static evaluation 65 and not the terminal
extreme -100000 - 0: the depth-0 static-evaluation base case precedes the
terminal checks. -/
theorem C2_counterexample :
    8 < (c2Pos 5).position ∧ (c2Pos 1).position ≠ 12 ∧ (c2Pos 5).position ≠ 12 ∧
    alphabeta 0 [] true I32_MIN I32_MAX c2Pos = (evaluate_position c2Pos, []) ∧
    evaluate_position c2Pos = 65 ∧ (65 : Int) ≠ -100000 - 0 := by
  refine ⟨by decide, by decide, by decide, by decide, by decide, by decide⟩

/-- C2 (amended).  For either side to move, with a transposition miss:
depth 0 returns the static evaluation even on a try position, and from
every depth at least 1 the side-to-move try check fires — black to move
with its royal beyond square 8, or white to move with its royal below
square 3 (royals on the board), receives the terminal extreme for that
side winning, with the table unchanged (no moves generated, no
evaluation). -/
theorem C2_try_precedence (table : Table) (P : Pieces) (turn : Bool) (alpha beta : Int)
    (hlk : tableLookup table (encode_pieces P turn) = none) :
    alphabeta 0 table turn alpha beta P = (evaluate_position P, table)
    ∧ (∀ depth : Nat, 1 ≤ depth → (P 1).position ≠ 12 → (P 5).position ≠ 12 →
        ((turn = true ∧ 8 < (P 5).position) ∨ (turn = false ∧ (P 1).position < 3)) →
        alphabeta depth table turn alpha beta P =
          (if turn = true then -100000 - (depth : Int) else 100000 + (depth : Int), table)) := by
  constructor
  · rw [alphabeta, abStep, hlk, abScore]
    simp
  · intro depth hd h1 h5 htry
    obtain ⟨d, rfl⟩ : ∃ d, depth = d + 1 := ⟨depth - 1, by omega⟩
    rcases htry with ⟨rfl, hp⟩ | ⟨rfl, hp⟩
    · rw [alphabeta, abStep, hlk, abScore]
      rw [if_neg (by omega), if_neg h1, if_neg h5, if_pos ⟨rfl, hp⟩]
      simp
    · rw [alphabeta, abStep, hlk, abScore]
      rw [if_neg (by omega), if_neg h1, if_neg h5, if_neg (by simp), if_pos ⟨rfl, hp⟩]
      simp

/-- Witness for the amended C2, applied for both sides to move: at the
black try position c2Pos with black to move, and at the white try
position c2PosW with white to move, each with the empty table, at depths
0 and 1. -/
theorem C2_try_precedence_witness :
    (tableLookup [] (encode_pieces c2Pos true) = none ∧
      alphabeta 0 [] true I32_MIN I32_MAX c2Pos = (evaluate_position c2Pos, []) ∧
      alphabeta 1 [] true I32_MIN I32_MAX c2Pos =
        (if (true : Bool) = true then -100000 - ((1 : Nat) : Int)
          else 100000 + ((1 : Nat) : Int), [])) ∧
    (tableLookup [] (encode_pieces c2PosW false) = none ∧
      alphabeta 0 [] false I32_MIN I32_MAX c2PosW = (evaluate_position c2PosW, []) ∧
      alphabeta 1 [] false I32_MIN I32_MAX c2PosW =
        (if (false : Bool) = true then -100000 - ((1 : Nat) : Int)
          else 100000 + ((1 : Nat) : Int), [])) := by
  have h1 := C2_try_precedence [] c2Pos true I32_MIN I32_MAX (by decide)
  have h2 := C2_try_precedence [] c2PosW false I32_MIN I32_MAX (by decide)
  exact ⟨⟨by decide, h1.1,
      h1.2 1 (by decide) (by decide) (by decide) (Or.inl ⟨rfl, by decide⟩)⟩,
    ⟨by decide, h2.1,
      h2.2 1 (by decide) (by decide) (by decide) (Or.inr ⟨rfl, by decide⟩)⟩⟩

/-- C3 (counterexample to the claim as stated).  White (false) to move at
depth 1 while the royal of the side NOT to move (black, slot 5) stands on
try square 9: alphabeta does not return a terminal extreme but searches
the position and returns the score -55 — the try check is not applied to
the opponent's royal. -/
theorem C3_counterexample :
    8 < (c3Pos 5).position ∧ (c3Pos 1).position ≠ 12 ∧ (c3Pos 5).position ≠ 12 ∧
    ¬(c3Pos 1).position < 3 ∧
    (alphabeta 1 [] false I32_MIN I32_MAX c3Pos).1 = -55 ∧
    (-55 : Int) ≠ -100000 - 1 ∧ (-55 : Int) ≠ 100000 + 1 := by
  refine ⟨by decide, by decide, by decide, by decide, by decide, by decide, by decide⟩

/-- C3 (amended).  The try checks apply to the royal of the side TO move:
at depth at least 1 with both royals on the board and a transposition
miss, black to move with pieces 5 beyond square 8 receives -100000 -
depth, and white to move with pieces 1 below square 3 receives 100000 +
depth. -/
theorem C3_try_side_to_move (table : Table) (P : Pieces) (alpha beta : Int) (depth : Nat)
    (hd : 1 ≤ depth) (h1 : (P 1).position ≠ 12) (h5 : (P 5).position ≠ 12) :
    (tableLookup table (encode_pieces P true) = none → 8 < (P 5).position →
      alphabeta depth table true alpha beta P = (-100000 - (depth : Int), table))
    ∧ (tableLookup table (encode_pieces P false) = none → (P 1).position < 3 →
      alphabeta depth table false alpha beta P = (100000 + (depth : Int), table)) := by
  obtain ⟨d, rfl⟩ : ∃ d, depth = d + 1 := ⟨depth - 1, by omega⟩
  constructor
  · intro hlk htry
    rw [alphabeta, abStep, hlk, abScore]
    rw [if_neg (by omega), if_neg h1, if_neg h5, if_pos ⟨rfl, htry⟩]
  · intro hlk htry
    rw [alphabeta, abStep, hlk, abScore]
    rw [if_neg (by omega), if_neg h1, if_neg h5, if_neg (by simp), if_pos ⟨rfl, htry⟩]

/-- Witness for the amended C3: at c3Pos with black to move the
side-to-move try fires at depth 1. -/
theorem C3_try_side_to_move_witness :
    ((c3Pos 1).position ≠ 12 ∧ (c3Pos 5).position ≠ 12 ∧
      tableLookup [] (encode_pieces c3Pos true) = none ∧ 8 < (c3Pos 5).position) ∧
    alphabeta 1 [] true I32_MIN I32_MAX c3Pos = (-100000 - ((1 : Nat) : Int), []) :=
  ⟨⟨by decide, by decide, by decide, by decide⟩,
    (C3_try_side_to_move [] c3Pos I32_MIN I32_MAX 1 (by decide) (by decide)
      (by decide)).1 (by decide) (by decide)⟩

/-- C5 (counterexample to the claim as stated).  At c5Pos with window
(500000, 600000) the maximizing search computes best score -55, which is
at most the original alpha; the claim says such a result is stored with
the kind of entry whose later same-depth lookup tightens the local alpha
(Flag.alpha in the code), but the code stores Flag.beta — and a second
identical call indeed tightens beta with the stored score, inverting the
window and returning the stored -55 as a cutoff. -/
theorem C5_counterexample :
    tableLookup (alphabeta 1 [] false 500000 600000 c5Pos).2 (encode_pieces c5Pos false)
        = some (1, -55, Flag.beta) ∧
    (-55 : Int) ≤ 500000 ∧ Flag.beta ≠ Flag.alpha ∧
    alphabeta 1 (alphabeta 1 [] false 500000 600000 c5Pos).2 false 500000 600000 c5Pos
        = (-55, (alphabeta 1 [] false 500000 600000 c5Pos).2) := by
  refine ⟨by decide, by decide, by decide, by decide⟩

/-- C5 (amended).  At every internal node (depth at least 1, neither
royal captured or in a try band for the mover, and no early return from
the lookup: no same-depth Exact hit and a non-inverted lookup-tightened
window) the search stores its fail-soft best score bs under the node's
encoding at the current depth, tagged as follows.  Maximizing (turn
false): bs at most the ORIGINAL alpha gets Flag.beta (the kind whose
later same-depth lookup tightens BETA), otherwise bs at least the
lookup-TIGHTENED beta gets Flag.alpha (the kind that tightens ALPHA),
otherwise (strictly inside the (original-alpha, tightened-beta) window)
Flag.exact — the tag-to-bound pairing is the transpose of the one
claimed.  Minimizing: bs at least the ORIGINAL beta gets Flag.alpha,
otherwise bs at most the lookup-TIGHTENED alpha gets Flag.beta,
otherwise Flag.exact.  A same-depth Flag.exact entry is returned
directly by a later lookup. -/
theorem C5_bound_tagging (table : Table) (P : Pieces) (turn : Bool) (alpha beta : Int)
    (depth : Nat) (hd : 1 ≤ depth)
    (hne : noEarlyReturn table (encode_pieces P turn) depth alpha beta)
    (h1 : (P 1).position ≠ 12) (h5 : (P 5).position ≠ 12)
    (ht : ¬(turn = true ∧ 8 < (P 5).position))
    (hf : ¬(turn = false ∧ (P 1).position < 3)) :
    (∃ bs fl, tableLookup (alphabeta depth table turn alpha beta P).2 (encode_pieces P turn)
        = some (depth, bs, fl)
      ∧ (turn = false →
          (bs ≤ alpha → fl = Flag.beta)
          ∧ (¬bs ≤ alpha → tightenedBeta table (encode_pieces P turn) depth beta ≤ bs →
              fl = Flag.alpha)
          ∧ (alpha < bs → bs < tightenedBeta table (encode_pieces P turn) depth beta →
              fl = Flag.exact))
      ∧ (turn = true →
          (beta ≤ bs → fl = Flag.alpha)
          ∧ (¬beta ≤ bs → bs ≤ tightenedAlpha table (encode_pieces P turn) depth alpha →
              fl = Flag.beta)
          ∧ (tightenedAlpha table (encode_pieces P turn) depth alpha < bs → bs < beta →
              fl = Flag.exact)))
    ∧ (∀ (table2 : Table) (s : Int),
        tableLookup table2 (encode_pieces P turn) = some (depth, s, Flag.exact) →
        alphabeta depth table2 turn alpha beta P = (s, table2)) := by
  obtain ⟨d, rfl⟩ : ∃ d, depth = d + 1 := ⟨depth - 1, by omega⟩
  constructor
  · rcases Bool.dichotomy turn with rfl | rfl
    · rw [alphabeta_succ_max d table alpha beta P hne h1 h5 (fun hc => hf ⟨rfl, hc⟩)]
      refine ⟨_, _, tableLookup_tableInsert_self _ _ _, ?_, ?_⟩
      · intro _
        refine ⟨fun hle => by rw [if_pos hle],
          fun hnle hge => by rw [if_neg hnle, if_pos hge],
          fun hgt hlt => by rw [if_neg (by omega), if_neg (by omega)]⟩
      · intro hc
        exact absurd hc (by decide)
    · rw [alphabeta_succ_min d table alpha beta P hne h1 h5 (fun hc => ht ⟨rfl, hc⟩)]
      refine ⟨_, _, tableLookup_tableInsert_self _ _ _, ?_, ?_⟩
      · intro hc
        exact absurd hc (by decide)
      · intro _
        refine ⟨fun hge => by rw [if_pos hge],
          fun hnge hle => by rw [if_neg hnge, if_pos hle],
          fun hgt hlt => by rw [if_neg (by omega), if_neg (by omega)]⟩
  · intro table2 s hlk2
    rw [alphabeta, abStep, hlk2]
    simp

/-- Witness for the amended C5 at c5Pos, maximizing, window
(500000, 600000), on a table already holding a same-depth Flag.alpha
entry for the node (a lookup hit that tightens alpha but does not
return early). -/
theorem C5_bound_tagging_witness :
    (noEarlyReturn c5HitTable (encode_pieces c5Pos false) 1 500000 600000 ∧
      (c5Pos 1).position ≠ 12 ∧ (c5Pos 5).position ≠ 12 ∧ ¬(c5Pos 1).position < 3) ∧
    (∃ bs fl, tableLookup (alphabeta 1 c5HitTable false 500000 600000 c5Pos).2
        (encode_pieces c5Pos false) = some (1, bs, fl)
      ∧ (false = false →
          (bs ≤ 500000 → fl = Flag.beta)
          ∧ (¬bs ≤ 500000 →
              tightenedBeta c5HitTable (encode_pieces c5Pos false) 1 600000 ≤ bs →
              fl = Flag.alpha)
          ∧ (500000 < bs →
              bs < tightenedBeta c5HitTable (encode_pieces c5Pos false) 1 600000 →
              fl = Flag.exact))
      ∧ (false = true →
          (600000 ≤ bs → fl = Flag.alpha)
          ∧ (¬600000 ≤ bs →
              bs ≤ tightenedAlpha c5HitTable (encode_pieces c5Pos false) 1 500000 →
              fl = Flag.beta)
          ∧ (tightenedAlpha c5HitTable (encode_pieces c5Pos false) 1 500000 < bs →
              bs < 600000 → fl = Flag.exact))) :=
  ⟨⟨by decide, by decide, by decide, by decide⟩,
    (C5_bound_tagging c5HitTable c5Pos false 500000 600000 1 (by decide) (by decide)
      (by decide) (by decide) (by decide) (by decide)).1⟩

/-- C6 (counterexample to the claim as stated).  At c6Pos, maximizing with
window (500000, 600000), every child is examined (no cutoff can occur
since every child score is below alpha) and the exact maximum of the
child scores is -55; yet alphabeta returns the window bound 500000, not
-55, so the returned value is NOT the best score found: the return value
is fail-hard.  The fail-soft best -55 is only stored in the table. -/
theorem C6_counterexample :
    (alphabeta 1 [] false 500000 600000 c6Pos).1 = 500000 ∧
    ((possible_moves c6Pos false).map fun m =>
        (alphabeta 0 [] true 500000 600000 (play_move c6Pos m)).1).foldl max I32_MIN = -55 ∧
    tableLookup (alphabeta 1 [] false 500000 600000 c6Pos).2 (encode_pieces c6Pos false)
        = some (1, -55, Flag.beta) ∧
    (-55 : Int) ≠ 500000 := by
  refine ⟨by decide, by decide, by decide, by decide⟩

/-- C6 (amended).  At every internal node (depth at least 1, no early
return from the lookup, window inside the i32 sentinels) the search
stores in the table the fail-soft best score bs, which is EXACTLY the
maximum (maximizing side) or minimum (minimizing side) of the child
scores the loop actually examined — every examined score is bounded by
bs and bs is their fold — while the value RETURNED is bs clamped to the
post-lookup window bound: max of the tightened alpha and bs for the
maximizing side, min of the tightened beta and bs for the minimizing
side. -/
theorem C6_clamped_return (table : Table) (P : Pieces) (turn : Bool) (alpha beta : Int)
    (depth : Nat) (hd : 1 ≤ depth)
    (hne : noEarlyReturn table (encode_pieces P turn) depth alpha beta)
    (h1 : (P 1).position ≠ 12) (h5 : (P 5).position ≠ 12)
    (ht : ¬(turn = true ∧ 8 < (P 5).position))
    (hf : ¬(turn = false ∧ (P 1).position < 3))
    (hA : I32_MIN ≤ alpha) (hB : beta ≤ I32_MAX) :
    ∃ bs fl, tableLookup (alphabeta depth table turn alpha beta P).2 (encode_pieces P turn)
        = some (depth, bs, fl)
      ∧ (turn = false →
          bs = (abMaxScores (fun t a b p => alphabeta (depth - 1) t true a b p) P
              (possible_moves P false) table
              (tightenedAlpha table (encode_pieces P false) depth alpha)
              (tightenedBeta table (encode_pieces P false) depth beta)).foldl max I32_MIN
          ∧ (∀ s ∈ abMaxScores (fun t a b p => alphabeta (depth - 1) t true a b p) P
              (possible_moves P false) table
              (tightenedAlpha table (encode_pieces P false) depth alpha)
              (tightenedBeta table (encode_pieces P false) depth beta), s ≤ bs)
          ∧ (alphabeta depth table turn alpha beta P).1 =
              max (tightenedAlpha table (encode_pieces P false) depth alpha) bs)
      ∧ (turn = true →
          bs = (abMinScores (fun t a b p => alphabeta (depth - 1) t false a b p) P
              (possible_moves P true) table
              (tightenedAlpha table (encode_pieces P true) depth alpha)
              (tightenedBeta table (encode_pieces P true) depth beta)).foldl min I32_MAX
          ∧ (∀ s ∈ abMinScores (fun t a b p => alphabeta (depth - 1) t false a b p) P
              (possible_moves P true) table
              (tightenedAlpha table (encode_pieces P true) depth alpha)
              (tightenedBeta table (encode_pieces P true) depth beta), bs ≤ s)
          ∧ (alphabeta depth table turn alpha beta P).1 =
              min (tightenedBeta table (encode_pieces P true) depth beta) bs) := by
  obtain ⟨d, rfl⟩ : ∃ d, depth = d + 1 := ⟨depth - 1, by omega⟩
  simp only [Nat.add_sub_cancel]
  rcases Bool.dichotomy turn with rfl | rfl
  · rw [alphabeta_succ_max d table alpha beta P hne h1 h5 (fun hc => hf ⟨rfl, hc⟩)]
    refine ⟨_, _, tableLookup_tableInsert_self _ _ _, fun _ => ⟨?_, ?_, ?_⟩,
      fun hc => absurd hc (by decide)⟩
    · exact abMaxLoop_best_eq _ _ _ _ _ _ _
    · intro s hs
      rw [abMaxLoop_best_eq]
      exact mem_le_foldl_max _ _ _ hs
    · exact abMaxLoop_alpha_eq _ _ _ _ _ _ _
        (le_trans hA (le_tightenedAlpha _ _ _ _))
  · rw [alphabeta_succ_min d table alpha beta P hne h1 h5 (fun hc => ht ⟨rfl, hc⟩)]
    refine ⟨_, _, tableLookup_tableInsert_self _ _ _, fun hc => absurd hc (by decide),
      fun _ => ⟨?_, ?_, ?_⟩⟩
    · exact abMinLoop_best_eq _ _ _ _ _ _ _
    · intro s hs
      rw [abMinLoop_best_eq]
      exact foldl_min_le_mem _ _ _ hs
    · exact abMinLoop_beta_eq _ _ _ _ _ _ _
        (le_trans (tightenedBeta_le _ _ _ _) hB)

/-- Witness for the amended C6 at c6Pos, maximizing, window
(500000, 600000), on a table already holding a same-depth Flag.alpha
entry for the node (a lookup hit that tightens alpha but does not
return early). -/
theorem C6_clamped_return_witness :
    (noEarlyReturn c6HitTable (encode_pieces c6Pos false) 1 500000 600000 ∧
      (c6Pos 1).position ≠ 12 ∧ (c6Pos 5).position ≠ 12 ∧
      I32_MIN ≤ (500000 : Int) ∧ (600000 : Int) ≤ I32_MAX) ∧
    (∃ bs fl, tableLookup (alphabeta 1 c6HitTable false 500000 600000 c6Pos).2
        (encode_pieces c6Pos false) = some (1, bs, fl)
      ∧ (false = false →
          bs = (abMaxScores (fun t a b p => alphabeta (1 - 1) t true a b p) c6Pos
              (possible_moves c6Pos false) c6HitTable
              (tightenedAlpha c6HitTable (encode_pieces c6Pos false) 1 500000)
              (tightenedBeta c6HitTable (encode_pieces c6Pos false) 1 600000)).foldl
                max I32_MIN
          ∧ (∀ s ∈ abMaxScores (fun t a b p => alphabeta (1 - 1) t true a b p) c6Pos
              (possible_moves c6Pos false) c6HitTable
              (tightenedAlpha c6HitTable (encode_pieces c6Pos false) 1 500000)
              (tightenedBeta c6HitTable (encode_pieces c6Pos false) 1 600000), s ≤ bs)
          ∧ (alphabeta 1 c6HitTable false 500000 600000 c6Pos).1 =
              max (tightenedAlpha c6HitTable (encode_pieces c6Pos false) 1 500000) bs)
      ∧ (false = true →
          bs = (abMinScores (fun t a b p => alphabeta (1 - 1) t false a b p) c6Pos
              (possible_moves c6Pos true) c6HitTable
              (tightenedAlpha c6HitTable (encode_pieces c6Pos true) 1 500000)
              (tightenedBeta c6HitTable (encode_pieces c6Pos true) 1 600000)).foldl
                min I32_MAX
          ∧ (∀ s ∈ abMinScores (fun t a b p => alphabeta (1 - 1) t false a b p) c6Pos
              (possible_moves c6Pos true) c6HitTable
              (tightenedAlpha c6HitTable (encode_pieces c6Pos true) 1 500000)
              (tightenedBeta c6HitTable (encode_pieces c6Pos true) 1 600000), bs ≤ s)
          ∧ (alphabeta 1 c6HitTable false 500000 600000 c6Pos).1 =
              min (tightenedBeta c6HitTable (encode_pieces c6Pos true) 1 600000) bs)) :=
  ⟨⟨by decide, by decide, by decide, by decide, by decide⟩,
    C6_clamped_return c6HitTable c6Pos false 500000 600000 1 (by decide) (by decide)
      (by decide) (by decide) (by decide) (by decide) (by decide) (by decide)⟩

set_option maxRecDepth 100000 in
/-- C1 (counterexample to the claim as stated), on a position satisfying
the specification's full Position model (SpecPos: royals at slots 1/5
with their owners, kind pairing of the token slots, occupancy invariant,
no hen in hand), with both royals on the board and neither try achieved.
Black to move at depth 3 has the novel move 7 to 3 (its successor is not
in the history) and the repeated move 5 to 3 (its successor is the
unique history entry).  The novel candidate's search returns i32::MAX,
because white can answer the chick move with a quiet lion move after
which every one of black's seven pieces is blocked by its own side and
the stalemated depth-1 node returns its incoming beta bound; the strict
improvement test score < beta therefore fails for every novel candidate,
the novel loop selects nothing, and shogi_ai falls through to the
repeated candidates, returning the repeated move 5 to 3 although a novel
alternative exists. -/
theorem C1_counterexample :
    SpecPos c1Pos ∧
    (c1Pos 1).position < 12 ∧ (c1Pos 5).position < 12 ∧
    ¬8 < (c1Pos 5).position ∧ 3 ≤ (c1Pos 1).position ∧
    shogi_ai c1Pos c1Played 3 true = some ⟨5, 3⟩ ∧
    play_move c1Pos ⟨5, 3⟩ ∈ c1Played ∧
    (⟨7, 3⟩ : Move) ∈ possible_moves c1Pos true ∧
    play_move c1Pos ⟨7, 3⟩ ∉ c1Played := by
  refine ⟨by decide, by decide, by decide, by decide, by decide, by decide, by decide,
    by decide, by decide⟩

/-- C1 (amended).  Whenever the root loop over the novel candidates (the
generated moves whose successor equals no history entry) ends with some
selected best move — that is, whenever at least one novel candidate's
search score strictly improved on the running bound, rather than every
novel score equalling the extreme initial bound — shogi_ai returns that
move without ever searching the repeated candidates, and it is a
generated move whose successor is not in the history. -/
theorem C1_novel_preference (P : Pieces) (played : List Pieces) (depth : Nat)
    (turn : Bool) (m : Move)
    (h : (rootLoop (depth - 1) turn
        (((possible_moves P turn).map fun mv => (mv, play_move P mv)).partition
          (fun c => played.any fun ps => piecesEqb ps c.2)).2
        [] I32_MIN I32_MAX none).2.2.1 = some m) :
    shogi_ai P played depth turn = some m ∧ m ∈ possible_moves P turn ∧
      play_move P m ∉ played := by
  have hmem := rootLoop_best_mem (depth - 1) turn _ [] I32_MIN I32_MAX none m h
  rcases hmem with hc | ⟨np, hnp⟩
  · cases hc
  · rw [List.partition_eq_filter_filter] at hnp
    have hcand : (m, np) ∈ (possible_moves P turn).map fun mv => (mv, play_move P mv) :=
      (List.mem_filter.1 hnp).1
    have hpredb := (List.mem_filter.1 hnp).2
    rcases List.mem_map.1 hcand with ⟨mv, hmv, hmveq⟩
    have hmv1 : mv = m := congrArg Prod.fst hmveq
    have hmv2 : play_move P mv = np := congrArg Prod.snd hmveq
    refine ⟨?_, hmv1 ▸ hmv, ?_⟩
    · simp only [shogi_ai]
      rw [h]
    · intro hin
      have hany : (played.any fun ps => piecesEqb ps np) = true := by
        rw [List.any_eq_true]
        refine ⟨np, ?_, (piecesEqb_iff _ _).2 rfl⟩
        rw [← hmv2, hmv1]
        exact hin
      have hnot := hpredb
      simp only [Function.comp, Bool.not_eq_true'] at hnot
      rw [hnot] at hany
      exact absurd hany (by decide)

/-- Witness for the amended C1: at the standard start with an empty
history and depth 1, the novel loop selects the chick capture 7 to 7, so
shogi_ai returns it. -/
theorem C1_novel_preference_witness :
    shogi_ai stdStart [] 1 true = some ⟨7, 7⟩ ∧
      (⟨7, 7⟩ : Move) ∈ possible_moves stdStart true ∧
      play_move stdStart ⟨7, 7⟩ ∉ ([] : List Pieces) :=
  C1_novel_preference stdStart [] 1 true ⟨7, 7⟩ (by decide)

end CatchTheLion
